import Mathlib

/-!
Verification of the scheduling core of scarab-js: the priority bucket queue
(`PriorityQueue`), the time-indexed event queue (`EventQueue`), their strict
variants, and the entity/event constructors.  Definitions are a shallow
embedding of `src/framework/queues.ts`, `src/framework/events.ts` and
`src/framework/entities.ts`:

* JS numbers holding logical times are embedded as `Int` (their validated use
  is integral); an optional/`undefined` time is `Option Int`.
* JS truthiness of a numeric value (`if (time)`) is `jsTruthy`: `undefined`,
  `null` and `0` are falsy.
* `RegExp(pattern).test(name)` is abstracted as an ambient total function
  `test : String → String → Bool`; the only fact used about it is that the
  empty pattern (the catch-all the constructor appends) matches every name,
  assumed as a hypothesis where needed.
* JS objects used as string-keyed dictionaries whose key set is fixed at
  construction (`_eventQueues`) are embedded as total functions
  `String → List Event` (absent keys read as `[]`; the code only ever reads
  keys it initialised).  The number-keyed sparse dictionary `_timeQueues` is
  embedded as an association list, since the code enumerates its keys.
* The tick-advance `while` loop in `EventQueue.next` is embedded with an
  explicitly computed fuel that provably suffices whenever an occupied slot
  lies ahead; the case where the source would loop forever is modelled by the
  whole operation returning `none`.
* Code that throws (`assert`) is embedded as `Except String`; an operation
  that would crash on a reference error returns `none`.
-/

namespace Scarab

/-- An event: `name`, mutable `time` (`none` = JS `undefined`), and the
uuid-supplied identity tag `guid` (modelled as a `Nat`; the core only
compares it for equality). -/
structure Event where
  name : String
  time : Option Int
  guid : Nat
deriving DecidableEq

/-- JS truthiness of an optional numeric value: `undefined` and `0` are
falsy, every other number is truthy. -/
def jsTruthy : Option Int → Bool
  | none => false
  | some t => t != 0

/-- State of a `PriorityQueue`: the effective pattern list, the per-pattern
bucket dictionary, and the `_length` counter. -/
structure PriorityQueue where
  priorityList : List String
  eventQueues : String → List Event
  length : Nat

/-- Point update of a bucket dictionary. -/
def updateQueue (eq : String → List Event) (k : String) (v : List Event) :
    String → List Event :=
  fun s => if s = k then v else eq s

/-- The effective pattern list built by `setPriorities`: `Array.from` of the
caller's list, then the catch-all.  The JS guard `"*" in priorityList` is a
property-name check, which is false for every array, so the empty-pattern
catch-all `""` is appended unconditionally. -/
def effectivePriorities (priorityList : List String) : List String :=
  priorityList ++ [""]

/-- `PriorityQueue.setPriorities`: replaces the pattern list with the
effective list and resets every bucket to empty (the `_length` counter is
left untouched, as in the source). -/
def PriorityQueue.setPriorities (pq : PriorityQueue) (priorityList : List String) :
    PriorityQueue :=
  { pq with
    priorityList := effectivePriorities priorityList
    eventQueues := fun _ => [] }

/-- `new PriorityQueue(priorityList)`: zero fields, then `setPriorities`. -/
def PriorityQueue.init (priorityList : List String) : PriorityQueue :=
  PriorityQueue.setPriorities ⟨[], fun _ => [], 0⟩ priorityList

/-- `PriorityQueue.add`: the first pattern whose regex accepts the event name
receives the event at the end of its bucket.  If no pattern matches, the
source dereferences an `undefined` bucket and crashes: modelled as `none`. -/
def PriorityQueue.add (test : String → String → Bool) (pq : PriorityQueue)
    (e : Event) : Option PriorityQueue :=
  match pq.priorityList.find? (fun p => test p e.name) with
  | none => none
  | some k =>
    some { pq with
      eventQueues := updateQueue pq.eventQueues k (pq.eventQueues k ++ [e])
      length := pq.length + 1 }

/-- The scan inside `PriorityQueue.next`: first non-empty bucket in pattern
order, returning its key, its head, and its tail. -/
def scanQueues (eq : String → List Event) :
    List String → Option (String × Event × List Event)
  | [] => none
  | k :: rest =>
    match eq k with
    | [] => scanQueues eq rest
    | e :: es => some (k, e, es)

/-- `PriorityQueue.next`: `null` when `_length` is zero, otherwise shift the
first non-empty bucket and decrement the counter; the fall-through when every
bucket is empty returns `null` without decrementing. -/
def PriorityQueue.next (pq : PriorityQueue) : Option Event × PriorityQueue :=
  if pq.length = 0 then (none, pq)
  else
    match scanQueues pq.eventQueues pq.priorityList with
    | none => (none, pq)
    | some (k, e, es) =>
      (some e, { pq with
        eventQueues := updateQueue pq.eventQueues k es
        length := pq.length - 1 })

/-- `PriorityQueue.isEmpty`. -/
def PriorityQueue.isEmpty (pq : PriorityQueue) : Bool :=
  pq.length == 0

/-- `StrictPriorityQueue.setPriorities`: asserts the stored pattern list is
still empty before delegating. -/
def StrictPriorityQueue.setPriorities (pq : PriorityQueue)
    (priorityList : List String) : Except String PriorityQueue :=
  if pq.priorityList.length = 0 then
    Except.ok (pq.setPriorities priorityList)
  else
    Except.error ("Updating priority list not currently supported.")

/-- `new StrictPriorityQueue(priorityList)`: the base constructor zeroes the
fields and dispatches to the overridden `setPriorities`. -/
def StrictPriorityQueue.init (priorityList : List String) :
    Except String PriorityQueue :=
  StrictPriorityQueue.setPriorities ⟨[], fun _ => [], 0⟩ priorityList

/-- `StrictPriorityQueue.add`: asserts the event has a truthy (non-empty)
name before delegating. -/
def StrictPriorityQueue.add (test : String → String → Bool)
    (pq : PriorityQueue) (e : Event) : Except String (Option PriorityQueue) :=
  if e.name = "" then Except.error ("Events must have a name.")
  else Except.ok (pq.add test e)

/-- State of an `EventQueue`: the raw pattern list handed to per-time
priority queues, the sparse time index, the `_length` counter, the detached
current queue, the current-time cursor, and `_nextTime`
(`none` = JS `undefined`). -/
structure EventQueue where
  priorityList : List String
  timeQueues : List (Int × PriorityQueue)
  length : Nat
  currentQueue : Option PriorityQueue
  currentTime : Int
  nextTime : Option Int

/-- Lookup in the sparse time index. -/
def lookupTime (tqs : List (Int × PriorityQueue)) (t : Int) :
    Option PriorityQueue :=
  (tqs.find? (fun p => p.1 == t)).map (fun p => p.2)

/-- Store into the sparse time index: replace in place, or append a fresh
key. -/
def storeTime : List (Int × PriorityQueue) → Int → PriorityQueue →
    List (Int × PriorityQueue)
  | [], t, q => [(t, q)]
  | (t', q') :: rest, t, q =>
    if t' == t then (t, q) :: rest else (t', q') :: storeTime rest t q

/-- `delete this._timeQueues[t]`. -/
def eraseTime (tqs : List (Int × PriorityQueue)) (t : Int) :
    List (Int × PriorityQueue) :=
  tqs.filter (fun p => p.1 != t)

/-- The keys of the sparse time index. -/
def timeKeys (tqs : List (Int × PriorityQueue)) : List Int :=
  tqs.map (fun p => p.1)

/-- Minimum occupied time (`Math.min` over the keys), `none` when empty. -/
def minKey? : List (Int × PriorityQueue) → Option Int
  | [] => none
  | (t, _) :: rest =>
    match minKey? rest with
    | none => some t
    | some m => some (min t m)

/-- Maximum occupied time, used only to compute a sufficient fuel for the
tick-advance loop. -/
def maxKey? : List (Int × PriorityQueue) → Option Int
  | [] => none
  | (t, _) :: rest =>
    match maxKey? rest with
    | none => some t
    | some m => some (max t m)

/-- `new EventQueue(priorityList)`. -/
def EventQueue.init (priorityList : List String) : EventQueue :=
  { priorityList := priorityList
    timeQueues := []
    length := 0
    currentQueue := none
    currentTime := 0
    nextTime := none }

/-- Time resolution in `EventQueue.add` (lines 215-224 of queues.ts): each
branch is guarded by JS truthiness, so an argument of `0` falls through. -/
def resolveTime (currentTime : Int) (eventTime : Option Int)
    (time : Option Int) : Int :=
  if jsTruthy time then time.getD 0
  else if jsTruthy eventTime then eventTime.getD 0
  else currentTime + 1

/-- `EventQueue.add`: resolve the time, initialise `_nextTime` if it was
falsy, write the resolved time back onto the event, and push it into the
(possibly freshly created) priority queue of that time slot.  The crash of
`PriorityQueue.add` on an unmatched name is propagated as `none`. -/
def EventQueue.add (test : String → String → Bool) (eq : EventQueue)
    (e : Event) (time : Option Int) : Option EventQueue :=
  let timeToUse := resolveTime eq.currentTime e.time time
  let nextTime' := if jsTruthy eq.nextTime then eq.nextTime else some timeToUse
  let e' := { e with time := some timeToUse }
  let q := (lookupTime eq.timeQueues timeToUse).getD
    (PriorityQueue.init eq.priorityList)
  match q.add test e' with
  | none => none
  | some q' =>
    some { eq with
      timeQueues := storeTime eq.timeQueues timeToUse q'
      length := eq.length + 1
      nextTime := nextTime' }

/-- The tick-advance `while` loop of `EventQueue.next`: starting just above
`t`, look for the first occupied slot, giving up when the fuel runs out. -/
def seekQueue (tqs : List (Int × PriorityQueue)) :
    Int → Nat → Option (Int × PriorityQueue)
  | _, 0 => none
  | t, Nat.succ fuel =>
    match lookupTime tqs (t + 1) with
    | some q => some (t + 1, q)
    | none => seekQueue tqs (t + 1) fuel

/-- Fuel that suffices for `seekQueue` whenever an occupied slot above `t`
exists: the distance to the largest occupied time. -/
def seekFuel (tqs : List (Int × PriorityQueue)) (t : Int) : Nat :=
  match maxKey? tqs with
  | none => 0
  | some m => (m - t).toNat

/-- The body of `EventQueue.next` once the current slot `t` and its queue
`q` are in hand (lines 258-280 of queues.ts): detach the slot, pop one
event, and maintain `_currentQueue` and `_nextTime`.  `Math.min` over an
empty key set (JS `Infinity`) is modelled as the error `none`; it is
unreachable in well-formed states. -/
def EventQueue.nextAt (eq : EventQueue) (t : Int) (q : PriorityQueue) :
    Option (Option Event × EventQueue) :=
  let tqs' := eraseTime eq.timeQueues t
  let r := q.next
  let len' := eq.length - 1
  if r.2.length = 0 then
    if len' = 0 then
      some (r.1, { eq with
        timeQueues := tqs'
        length := len'
        currentQueue := none
        currentTime := t
        nextTime := none })
    else
      match minKey? tqs' with
      | none => none
      | some m =>
        some (r.1, { eq with
          timeQueues := tqs'
          length := len'
          currentQueue := none
          currentTime := t
          nextTime := some m })
  else
    some (r.1, { eq with
      timeQueues := tqs'
      length := len'
      currentQueue := some r.2
      currentTime := t
      nextTime := some t })

/-- `EventQueue.next`.  The outer `Option` marks the places where the source
does not return normally, chiefly the tick-advance loop running forever when
no occupied slot lies above `currentTime`.  The inner `Option Event` is the
source's `null`-or-event result. -/
def EventQueue.next (eq : EventQueue) : Option (Option Event × EventQueue) :=
  if eq.length = 0 then some (none, eq)
  else
    let found :=
      match eq.currentQueue with
      | some q => some (eq.currentTime, q)
      | none => seekQueue eq.timeQueues eq.currentTime
          (seekFuel eq.timeQueues eq.currentTime)
    match found with
    | none => none
    | some (t, q) => eq.nextAt t q

/-- `EventQueue.isEmpty`. -/
def EventQueue.isEmpty (eq : EventQueue) : Bool :=
  eq.length == 0

/-- `StrictEventQueue.add`: asserts a truthy name; when either the explicit
time or the event time is truthy it asserts the chosen time is an integer
(automatic here, times being embedded as `Int`) and strictly above
`currentTime`; then delegates.  The asserts throw before any state is
touched, so a `ValidationError` leaves the queue unchanged. -/
def StrictEventQueue.add (test : String → String → Bool) (eq : EventQueue)
    (e : Event) (time : Option Int) : Except String (Option EventQueue) :=
  if e.name = "" then Except.error ("Events must have a name.")
  else if jsTruthy time || jsTruthy e.time then
    let timeToUse := if jsTruthy time then time.getD 0 else e.time.getD 0
    if timeToUse ≤ eq.currentTime then
      Except.error ("Time is before current timeToUse.")
    else Except.ok (eq.add test e time)
  else Except.ok (eq.add test e time)

/-! ### C9: constructor field merge order (`Object.assign` semantics)

The constructors of `Event` (events.ts), `EntityDescription` and `Entity`
(entities.ts) build a JS object by a sequence of field writes and
`Object.assign(this, bag)` calls.  An object is embedded as the ordered list
of its field writes; reading a field takes the last write, which is exactly
`Object.assign`'s override semantics. -/
/-- Values stored in the open property bags. -/
inductive JSVal where
  | undef
  | str (s : String)
  | num (n : Int)
  | registry (tag : Nat)
deriving DecidableEq

/-- A JS object as the ordered list of its field writes; later writes shadow
earlier ones. -/
abbrev Obj := List (String × JSVal)

/-- The last value written to a field, if any. -/
def lastVal (o : Obj) (k : String) : Option JSVal :=
  (List.find? (fun p => p.1 == k) (List.reverse o)).map (fun p => p.2)

/-- Reading a field: last write wins, absent fields read as `undefined`. -/
def readField (o : Obj) (k : String) : JSVal :=
  (lastVal o k).getD JSVal.undef

/-- `new Event(name, properties)` (events.ts lines 47-53): `name`, a fresh
guid, `time = undefined`, then `Object.assign(this, properties)`. -/
def eventObject (name : String) (guid : JSVal) (properties : Obj) : Obj :=
  [("name", JSVal.str name), ("guid", guid), ("time", JSVal.undef)] ++ properties

/-- The four handler-registry field names. -/
def registryFields : List String :=
  ["_eventHandlers", "_entityCreatedHandlers",
   "_entityDestroyedHandlers", "_entityUpdatedHandlers"]

/-- Fresh, empty handler registries as trailing field writes. -/
def freshRegistries : Obj :=
  List.map (fun k => (k, JSVal.registry 0)) registryFields

/-- `new EntityDescription(name, properties)` (entities.ts lines 59-71):
`name`, a fresh guid, `Object.assign(this, properties)`, then the four
registries are created. -/
def entityDescriptionObject (name : String) (guid : JSVal) (properties : Obj) :
    Obj :=
  [("name", JSVal.str name), ("guid", guid)] ++ (properties ++ freshRegistries)

/-- `new Entity(description, properties)` (entities.ts lines 156-168):
`Object.assign(this, description)`, `Object.assign(this, properties)`, then
a fresh guid overwrites the copied one and the four registries are
recreated (they are then filled by `_copyHandlers`, modelled separately). -/
def entityObject (description : Obj) (freshGuid : JSVal) (properties : Obj) :
    Obj :=
  description ++ (properties ++ (("guid", freshGuid) :: freshRegistries))

/-! ### C6: per-instance handler binding (entities.ts)

The source relies on `this`-rebinding: `_copyHandlers` copies every handler
registered on the description and binds it to the new instance
(`h = h.bind(this)`), and `handleEvent` invokes the bound copies.  The
embedding makes the receiver explicit: a registered handler is a transformer
of the receiver's property bag; binding pairs it with the guid of its
receiver; all bags live in a guid-keyed store, so a handler invocation reads
and writes exactly the bag of the guid it was bound to.  (The three
entity-lifecycle registries follow the identical copy-and-bind pattern; the
event registry, the one `handleEvent` uses, is the one modelled.) -/
/-- A handler as registered on a description: in JS a function over `this`;
here a transformer of the receiver's property bag. -/
abbrev Handler := Event → Obj → Obj

/-- `h.bind(this)`: a handler together with the guid of its receiver. -/
structure BoundHandler where
  receiver : Nat
  fn : Handler

/-- The template: name, its own guid, and the event-handler registry
(event name to handlers in registration order). -/
structure EntityDescription where
  name : String
  guid : Nat
  eventHandlers : String → List Handler

/-- An instantiated entity: fresh guid and its own bound copies of the
registry. -/
structure Entity where
  name : String
  guid : Nat
  eventHandlers : String → List BoundHandler

/-- All property bags, keyed by guid (the description's defaults live at the
description's guid). -/
abbrev Store := Nat → Obj

/-- Overwrite one bag. -/
def storeSet (s : Store) (g : Nat) (o : Obj) : Store :=
  fun g' => if g' = g then o else s g'

/-- `description.entity(properties)` / `new Entity(description, properties)`:
the new bag is the description's bag extended by the instantiation-time
properties (override wins, `Object.assign` order), stored under the fresh
guid; `_copyHandlers` produces, for every registered handler, a copy bound
to the new instance. -/
def instantiate (d : EntityDescription) (freshGuid : Nat) (properties : Obj)
    (s : Store) : Entity × Store :=
  (⟨d.name, freshGuid,
      fun n => (d.eventHandlers n).map (fun h => ⟨freshGuid, h⟩)⟩,
   storeSet s freshGuid (s d.guid ++ properties))

/-- `entity.handleEvent(event)`: invoke each handler registered under the
event's name, in registration order; each bound handler rewrites the bag of
its own receiver.  A missing key is a no-op. -/
def handleEvent (ent : Entity) (e : Event) (s : Store) : Store :=
  (ent.eventHandlers e.name).foldl
    (fun s h => storeSet s h.receiver (h.fn e (s h.receiver))) s

/-! ### Drain-order analysis of the priority bucket queue -/
/-- Declared-order flattening of the buckets along a pattern list: the first
pattern's bucket, then, with that bucket emptied, the rest (emptying makes a
repeated pattern contribute its bucket only once, as the shared dictionary
entry does in the source). -/
def flattenBuckets (f : String → List Event) : List String → List Event
  | [] => []
  | k :: rest => f k ++ flattenBuckets (updateQueue f k []) rest

/-- The queued events of a priority queue, in drain order. -/
def PriorityQueue.toList (pq : PriorityQueue) : List Event :=
  flattenBuckets pq.eventQueues pq.priorityList

/-- The bucket key `PriorityQueue.add` files an event under: the first
declared pattern accepting the name. -/
def findKey (test : String → String → Bool) (pl : List String)
    (name : String) : Option String :=
  pl.find? (fun p => test p name)

/-- The priority-bucket rank of an event name: the index of the first
declared pattern accepting it. -/
def bucketRank (test : String → String → Bool) :
    List String → String → Option Nat
  | [], _ => none
  | p :: rest, name =>
    if test p name then some 0
    else (bucketRank test rest name).map (fun r => r + 1)

/-- Index of the first occurrence of a pattern string in a list (length of
the list when absent). -/
def strIndex (k : String) : List String → Nat
  | [] => 0
  | p :: rest => if p = k then 0 else strIndex k rest + 1

/-- Numeric rank used inside the drain-order proofs: position of the
bucket key in the pattern list. -/
def keyRank (pl : List String) (key : Event → Option String) (e : Event) :
    Nat :=
  match key e with
  | some k => strIndex k pl
  | none => pl.length

/-- Reference drain order for one bucket dictionary: for each pattern in
declared order, the not-yet-served events the key function files under it,
in insertion order. -/
def seqDrain (key : Event → Option String) :
    List String → List Event → List Event
  | [], _ => []
  | k :: rest, evs =>
    evs.filter (fun e => key e == some k) ++
      seqDrain key rest (evs.filter (fun e => !(key e == some k)))

/-- Invariant of a reachable priority queue: the `_length` counter counts the
queued events, and the effective pattern list ends with the catch-all. -/
structure PQWF (pq : PriorityQueue) : Prop where
  lenEq : pq.length = pq.toList.length
  wildcard : "" ∈ pq.priorityList

/-! ### C5: the wildcard catch-all -/
/-- Reachable states of a priority bucket queue: constructed, then any
interleaving of completed `add` and `next` calls. -/
inductive PQReach (test : String → String → Bool) : PriorityQueue → Prop
  | init (pl : List String) : PQReach test (PriorityQueue.init pl)
  | addStep {pq pq' : PriorityQueue} {e : Event} : PQReach test pq →
      pq.add test e = some pq' → PQReach test pq'
  | nextStep {pq : PriorityQueue} : PQReach test pq → PQReach test pq.next.2

/-! ### Sparse time index toolkit -/
/-- Total number of events across the stored per-time queues. -/
def totalLen (tqs : List (Int × PriorityQueue)) : Nat :=
  (tqs.map (fun p => p.2.length)).sum

/-! ### Event queue well-formedness -/
/-- Basic well-formedness of a reachable event queue: every stored per-time
queue, and the detached current queue when present, is well-formed and
non-empty. -/
structure EQWF (eq : EventQueue) : Prop where
  stored : ∀ t pq, lookupTime eq.timeQueues t = some pq →
    PQWF pq ∧ 0 < pq.length
  current : ∀ pq, eq.currentQueue = some pq → PQWF pq ∧ 0 < pq.length

/-! ### C8: operation counting over arbitrary interleavings -/
/-- One caller operation on a priority bucket queue. -/
inductive PQOp where
  | add (e : Event)
  | next

/-- Run operations on a priority bucket queue, counting completed adds and
`next` calls that returned an event; `none` marks a crashed `add`. -/
def runPQ (test : String → String → Bool) :
    List PQOp → PriorityQueue × Nat × Nat →
      Option (PriorityQueue × Nat × Nat)
  | [], st => some st
  | PQOp.add e :: ops, (pq, n, m) =>
    match pq.add test e with
    | none => none
    | some pq' => runPQ test ops (pq', n + 1, m)
  | PQOp.next :: ops, (pq, n, m) =>
    match pq.next with
    | (none, pq') => runPQ test ops (pq', n, m)
    | (some _, pq') => runPQ test ops (pq', n, m + 1)

/-- One caller operation on an event queue. -/
inductive EQOp where
  | add (e : Event) (time : Option Int)
  | next

/-- Run operations on an event queue, counting completed adds and `next`
calls that returned an event; `none` marks a crash or divergence. -/
def runEQ (test : String → String → Bool) :
    List EQOp → EventQueue × Nat × Nat → Option (EventQueue × Nat × Nat)
  | [], st => some st
  | EQOp.add e t :: ops, (eq, n, m) =>
    match eq.add test e t with
    | none => none
    | some eq' => runEQ test ops (eq', n + 1, m)
  | EQOp.next :: ops, (eq, n, m) =>
    match eq.next with
    | none => none
    | some (none, eq') => runEQ test ops (eq', n, m)
    | some (some _, eq') => runEQ test ops (eq', n, m + 1)

/-- The inductive invariant of strict event queues. -/
structure SInv (eq : EventQueue) : Prop where
  wf : EQWF eq
  keysNodup : (timeKeys eq.timeQueues).Nodup
  keysGT : ∀ t ∈ timeKeys eq.timeQueues, eq.currentTime < t
  ctNonneg : 0 ≤ eq.currentTime
  ctPos : eq.currentQueue.isSome = true → 0 < eq.currentTime
  lenEq : eq.length = (match eq.currentQueue with
    | some q => q.length
    | none => 0) + totalLen eq.timeQueues
  ntIff : eq.nextTime = none ↔ eq.length = 0
  ntPos : ∀ v, eq.nextTime = some v → 0 < v

/-- States reachable by constructing a strict event queue and running any
sequence of completed strict `add` and `next` calls. -/
inductive SReach (test : String → String → Bool) : EventQueue → Prop
  | init (pl : List String) : SReach test (EventQueue.init pl)
  | addStep {eq eq' : EventQueue} {e : Event} {t : Option Int} :
      SReach test eq →
      StrictEventQueue.add test eq e t = Except.ok (some eq') →
      SReach test eq'
  | nextStep {eq eq' : EventQueue} {r : Option Event} : SReach test eq →
      eq.next = some (r, eq') → SReach test eq'

/-! ### C1: the end-to-end drain order -/
/-- Replaying a list of `add` calls (event plus optional explicit time). -/
def addAll (test : String → String → Bool) :
    EventQueue → List (Event × Option Int) → Option EventQueue
  | eq, [] => some eq
  | eq, (e, t) :: rest =>
    match eq.add test e t with
    | none => none
    | some eq2 => addAll test eq2 rest

/-- The written-back copies of the added events, in insertion order, each
carrying its resolved time (during a pure add phase `currentTime` stays
fixed at `ct`). -/
def writeBack (ct : Int) : List (Event × Option Int) → List Event
  | [] => []
  | (e, t) :: rest =>
    { e with time := some (resolveTime ct e.time t) } :: writeBack ct rest

/-- Draining by repeated `next()` calls, collecting the returned events; the
fuel bounds the number of calls, and the result is `none` when a call does
not complete or the fuel ends before the queue is empty. -/
def drainEQ : EventQueue → Nat → Option (List Event)
  | eq, 0 => if eq.length = 0 then some [] else none
  | eq, fuel + 1 =>
    match eq.next with
    | none => none
    | some (none, _) => some []
    | some (some e, eq2) => (drainEQ eq2 fuel).map (fun l => e :: l)

/-- Slot-by-slot reference drain of the sparse time index: the smallest
occupied time first, its bucket contents in drain order, then the remaining
slots. -/
def drainTimes : List (Int × PriorityQueue) → Nat → List Event
  | _, 0 => []
  | tqs, fuel + 1 =>
    match minKey? tqs with
    | none => []
    | some m =>
      ((lookupTime tqs m).getD (PriorityQueue.init [])).toList ++
        drainTimes (eraseTime tqs m) fuel

/-- The events a state still holds, in the order repeated `next()` calls
deliver them: the detached current queue first, then the stored slots by
ascending time. -/
def remSpec (eq : EventQueue) : List Event :=
  (match eq.currentQueue with
   | some q => q.toList
   | none => []) ++ drainTimes eq.timeQueues eq.timeQueues.length

/-- Resolved time of a queued event (queued events always carry one). -/
def timeOf (e : Event) : Int := e.time.getD 0

/-- The priority-bucket rank in the claimed drain order: the index of the
first declared pattern accepting the name (list length when none does). -/
def rankOf (test : String → String → Bool) (pl2 : List String)
    (e : Event) : Nat :=
  (bucketRank test pl2 e.name).getD pl2.length

/-- The claimed total order on drained events: resolved time ascending, then
priority-bucket rank ascending. -/
def lexLE (test : String → String → Bool) (pl2 : List String)
    (a b : Event) : Prop :=
  timeOf a < timeOf b ∨
    (timeOf a = timeOf b ∧ rankOf test pl2 a ≤ rankOf test pl2 b)

/-- Characterization of the sparse time index after a pure add phase,
against the written-back list `wb`: a slot is occupied exactly when some
event resolved to it, and every slot holds the effective pattern list and
exactly the per-bucket filters of `wb`, in insertion order. -/
def timesChar (test : String → String → Bool) (pl2 : List String)
    (tqs : List (Int × PriorityQueue)) (wb : List Event) : Prop :=
  (∀ t : Int, t ∈ timeKeys tqs ↔
      wb.filter (fun e => e.time == some t) ≠ []) ∧
  (∀ t q, lookupTime tqs t = some q →
    q.priorityList = pl2 ∧
    (∀ k, q.eventQueues k =
      (wb.filter (fun e => e.time == some t)).filter
        (fun e => findKey test pl2 e.name == some k)))

/-! ### Association-list helper lemmas for the sparse time index -/
theorem lookupTime_nil (t : Int) : lookupTime [] t = none := rfl

theorem lookupTime_cons (hd : Int × PriorityQueue)
    (rest : List (Int × PriorityQueue)) (t' : Int) :
    lookupTime (hd :: rest) t' =
      if hd.1 = t' then some hd.2 else lookupTime rest t' := by
  by_cases h : hd.1 = t'
  · simp [lookupTime, List.find?_cons_of_pos, h]
  · simp [lookupTime, List.find?_cons_of_neg, h]

theorem lookupTime_storeTime_self (tqs : List (Int × PriorityQueue)) (t : Int)
    (q : PriorityQueue) : lookupTime (storeTime tqs t q) t = some q := by
  induction tqs with
  | nil => simp [storeTime, lookupTime_cons, lookupTime_nil]
  | cons hd rest ih =>
    by_cases h : hd.1 = t
    · simp [storeTime, h, lookupTime_cons]
    · simpa [storeTime, h, lookupTime_cons] using ih

theorem lookupTime_storeTime_ne (tqs : List (Int × PriorityQueue)) (t t' : Int)
    (q : PriorityQueue) (h : t' ≠ t) :
    lookupTime (storeTime tqs t q) t' = lookupTime tqs t' := by
  have h' : ¬ t = t' := Ne.symm h
  induction tqs with
  | nil => simp [storeTime, lookupTime_cons, lookupTime_nil, h']
  | cons hd rest ih =>
    by_cases h1 : hd.1 = t
    · have h2 : ¬ hd.1 = t' := by rw [h1]; exact h'
      simp [storeTime, h1, lookupTime_cons, h2, h']
    · by_cases h2 : hd.1 = t'
      · simp [storeTime, h1, lookupTime_cons, h2, h]
      · simpa [storeTime, h1, lookupTime_cons, h2, h] using ih

/-! ### C3: time resolution in `EventQueue.add` -/
/-- C3 counterexample: the claim says the explicit time argument takes
precedence "including when it is 0", but the source guards the branch with
JS truthiness, so an explicit time of `0` is skipped: with `currentTime = 0`
and `event.time = 5`, `add(event, 0)` resolves to `5`, not `0`. -/
theorem C3_counterexample :
    resolveTime 0 (some 5) (some 0) = 5 ∧ resolveTime 0 (some 5) (some 0) ≠ 0 := by
  decide

/-- C3 amended: `EventQueue.add` resolves the scheduling time by precedence
on JS-truthy values: the explicit time argument if given and non-zero,
otherwise `event.time` if set and non-zero, otherwise `currentTime + 1`; and
the resolved time is written back onto the event (overwriting any prior
value) before it is enqueued: the enqueued copy, the last element of its
priority bucket, carries the resolved time. -/
theorem C3_amended_resolution (test : String → String → Bool)
    (eq : EventQueue) (e : Event) (time : Option Int) :
    (∀ v : Int, time = some v → v ≠ 0 →
        resolveTime eq.currentTime e.time time = v) ∧
    ((time = none ∨ time = some 0) → ∀ w : Int, e.time = some w → w ≠ 0 →
        resolveTime eq.currentTime e.time time = w) ∧
    ((time = none ∨ time = some 0) → (e.time = none ∨ e.time = some 0) →
        resolveTime eq.currentTime e.time time = eq.currentTime + 1) ∧
    (∀ eq', eq.add test e time = some eq' →
      ∃ pq k,
        lookupTime eq'.timeQueues (resolveTime eq.currentTime e.time time) =
          some pq ∧
        (pq.eventQueues k).getLast? =
          some { e with time := some (resolveTime eq.currentTime e.time time) }) := by
  refine ⟨?_, ?_, ?_, ?_⟩
  · intro v hv hv0
    subst hv
    simp [resolveTime, jsTruthy, hv0]
  · rintro (rfl | rfl) w hw hw0 <;> simp [resolveTime, jsTruthy, hw, hw0]
  · rintro (rfl | rfl) (h | h) <;> simp [h, resolveTime, jsTruthy]
  · intro eq' hadd
    simp only [EventQueue.add] at hadd
    split at hadd
    · exact absurd hadd (by simp)
    · next q' hq =>
      simp only [Option.some.injEq] at hadd
      subst hadd
      simp only [PriorityQueue.add] at hq
      split at hq
      · exact absurd hq (by simp)
      · next k hfind =>
        simp only [Option.some.injEq] at hq
        refine ⟨q', k, ?_, ?_⟩
        · simpa using
            lookupTime_storeTime_self eq.timeQueues
              (resolveTime eq.currentTime e.time time) q'
        · rw [← hq]
          simp [updateQueue]

/-- Witness for the amended C3 theorem at concrete inputs: a truthy explicit
time wins; an explicit `0` falls through to a truthy `event.time`; with both
falsy the next tick is used; and the enqueued copy carries the written-back
time. -/
theorem C3_amended_resolution_witness :
    resolveTime 0 (some 5) (some 7) = 7 ∧
    resolveTime 0 (some 5) (some 0) = 5 ∧
    resolveTime 0 (some 0) none = 1 ∧
    (∃ pq k,
      lookupTime
        (((EventQueue.init ["a"]).add (fun _ _ => true) ⟨"b", some 5, 0⟩
            (some 7)).getD (EventQueue.init [])).timeQueues 7 = some pq ∧
      (pq.eventQueues k).getLast? = some ⟨"b", some 7, 0⟩) := by
  refine ⟨?_, ?_, ?_, ?_⟩
  · exact (C3_amended_resolution (fun _ _ => true) (EventQueue.init [])
      ⟨"b", some 5, 0⟩ (some 7)).1 7 rfl (by decide)
  · exact (C3_amended_resolution (fun _ _ => true) (EventQueue.init [])
      ⟨"b", some 5, 0⟩ (some 0)).2.1 (Or.inr rfl) 5 rfl (by decide)
  · exact (C3_amended_resolution (fun _ _ => true) (EventQueue.init [])
      ⟨"b", some 0, 0⟩ none).2.2.1 (Or.inl rfl) (Or.inr rfl)
  · exact (C3_amended_resolution (fun _ _ => true) (EventQueue.init ["a"])
      ⟨"b", some 5, 0⟩ (some 7)).2.2.2 _ rfl

/-! ### C4: strict-mode validation in `StrictEventQueue.add` -/
/-- C4: in strict mode, `add` raises a ValidationError exactly when the
event name is empty or the resolved time is not strictly greater than
`currentTime`.  (Times are embedded as integers, so the source's
`Number.isInteger` assertion holds automatically.)  The asserts run before
any mutation, so a failing `add` produces no new state. -/
theorem C4_strict_add_validation (test : String → String → Bool)
    (eq : EventQueue) (e : Event) (time : Option Int) :
    (∃ msg, StrictEventQueue.add test eq e time = Except.error msg) ↔
      (e.name = "" ∨ resolveTime eq.currentTime e.time time ≤ eq.currentTime) := by
  unfold StrictEventQueue.add
  by_cases hname : e.name = ""
  · simp [hname]
  · simp only [hname, if_false, false_or]
    by_cases ht : jsTruthy time
    · have : resolveTime eq.currentTime e.time time = time.getD 0 := by
        simp [resolveTime, ht]
      rw [this]
      by_cases hle : time.getD 0 ≤ eq.currentTime <;> simp [ht, hle]
    · by_cases he : jsTruthy e.time
      · have : resolveTime eq.currentTime e.time time = e.time.getD 0 := by
          simp [resolveTime, ht, he]
        rw [this]
        by_cases hle : e.time.getD 0 ≤ eq.currentTime <;> simp [ht, he, hle]
      · have : resolveTime eq.currentTime e.time time = eq.currentTime + 1 := by
          simp [resolveTime, ht, he]
        rw [this]
        simp [ht, he]

/-! ### C7: the strict priority queue locks its pattern list -/
/-- C7: on the strict priority bucket queue, `setPriorities` succeeds exactly
while the stored pattern list is empty, which holds only inside the
constructor (the base constructor zeroes `_priorityList` before
dispatching); construction itself succeeds, and every call after
construction, for any argument (and any original list, including the empty
one), fails with the ValidationError — the assert throws before any field is
assigned, so the stored pattern list and buckets are untouched. -/
theorem C7_strict_priorities_locked (priorityList pl' : List String)
    (pq : PriorityQueue) :
    StrictPriorityQueue.init priorityList =
      Except.ok (PriorityQueue.init priorityList) ∧
    StrictPriorityQueue.setPriorities (PriorityQueue.init priorityList) pl' =
      Except.error ("Updating priority list not currently supported.") ∧
    ((∃ pq', StrictPriorityQueue.setPriorities pq pl' = Except.ok pq') ↔
      pq.priorityList.length = 0) := by
  refine ⟨?_, ?_, ?_⟩
  · simp [StrictPriorityQueue.init, StrictPriorityQueue.setPriorities,
      PriorityQueue.init]
  · simp [StrictPriorityQueue.setPriorities, PriorityQueue.init,
      PriorityQueue.setPriorities, effectivePriorities]
  · by_cases h : pq.priorityList.length = 0 <;>
      simp [StrictPriorityQueue.setPriorities, h]

theorem lastVal_append (o1 o2 : Obj) (k : String) :
    lastVal (o1 ++ o2) k = (lastVal o2 k).orElse (fun _ => lastVal o1 k) := by
  unfold lastVal
  rw [List.reverse_append, List.find?_append]
  cases List.find? (fun p => p.1 == k) (List.reverse o2) <;> simp [Option.orElse]

theorem readField_append_of_some (o1 o2 : Obj) (k : String) (v : JSVal)
    (h : lastVal o2 k = some v) : readField (o1 ++ o2) k = v := by
  unfold readField
  rw [lastVal_append, h]
  rfl

theorem readField_append_of_none (o1 o2 : Obj) (k : String)
    (h : lastVal o2 k = none) : readField (o1 ++ o2) k = readField o1 k := by
  unfold readField
  rw [lastVal_append, h]
  rfl

theorem lastVal_cons (p : String × JSVal) (o : Obj) (k : String) :
    lastVal (p :: o) k =
      (lastVal o k).orElse (fun _ => if p.1 = k then some p.2 else none) := by
  rw [show (p :: o) = [p] ++ o from rfl, lastVal_append]
  by_cases h : p.1 = k
  · have hb : (p.1 == k) = true := by simp [h]
    cases ho : lastVal o k <;>
      simp [Option.orElse, lastVal, List.find?, hb, h, ho]
  · have hb : (p.1 == k) = false := by simp [h]
    cases ho : lastVal o k <;>
      simp [Option.orElse, lastVal, List.find?, hb, h, ho]

theorem lastVal_freshRegistries_of_not_mem (k : String)
    (h : k ∉ registryFields) : lastVal freshRegistries k = none := by
  simp only [registryFields, List.mem_cons, List.not_mem_nil, or_false,
    not_or] at h
  obtain ⟨h1, h2, h3, h4⟩ := h
  have b1 : (("_eventHandlers" : String) == k) = false := by
    simp [Ne.symm h1]
  have b2 : (("_entityCreatedHandlers" : String) == k) = false := by
    simp [Ne.symm h2]
  have b3 : (("_entityDestroyedHandlers" : String) == k) = false := by
    simp [Ne.symm h3]
  have b4 : (("_entityUpdatedHandlers" : String) == k) = false := by
    simp [Ne.symm h4]
  simp [freshRegistries, registryFields, lastVal, List.find?, b1, b2, b3, b4]

theorem lastVal_freshRegistries_of_mem (k : String)
    (h : k ∈ registryFields) : lastVal freshRegistries k = some (JSVal.registry 0) := by
  fin_cases h <;> rfl

/-- C9: the optional properties bag is merged last over the built-in fields,
so a bag entry keyed `name` silently overwrites the constructor's name
argument in all three classes, and a bag entry keyed `guid` or `time`
overwrites those fields on `Event` and `EntityDescription`; only `Entity`
assigns its guid (and recreates its four handler registries) after the
merge, so an `Entity`'s guid always reads as the fresh one, for every bag. -/
theorem C9_bag_merge_order (name : String) (guid freshGuid : JSVal)
    (bag description : Obj) (v : JSVal) :
    (lastVal bag "name" = some v →
      readField (eventObject name guid bag) "name" = v ∧
      readField (entityDescriptionObject name guid bag) "name" = v ∧
      readField (entityObject description freshGuid bag) "name" = v) ∧
    (lastVal bag "guid" = some v →
      readField (eventObject name guid bag) "guid" = v ∧
      readField (entityDescriptionObject name guid bag) "guid" = v) ∧
    (lastVal bag "time" = some v →
      readField (eventObject name guid bag) "time" = v ∧
      readField (entityDescriptionObject name guid bag) "time" = v) ∧
    (lastVal bag "name" = none →
      readField (eventObject name guid bag) "name" = JSVal.str name ∧
      readField (entityDescriptionObject name guid bag) "name" = JSVal.str name) ∧
    readField (entityObject description freshGuid bag) "guid" = freshGuid ∧
    (∀ rk, rk ∈ registryFields →
      readField (entityObject description freshGuid bag) rk = JSVal.registry 0) := by
  have htail : ∀ k : String, k ≠ "guid" → k ∉ registryFields →
      lastVal (("guid", freshGuid) :: freshRegistries) k = none := by
    intro k hg hr
    rw [lastVal_cons, lastVal_freshRegistries_of_not_mem k hr]
    simp [Option.orElse, Ne.symm hg]
  have hbase : ∀ k : String, k ∉ registryFields → lastVal bag k = some v →
      lastVal (bag ++ freshRegistries) k = some v := by
    intro k hk hv
    rw [lastVal_append, lastVal_freshRegistries_of_not_mem k hk, hv]
    rfl
  have hent : ∀ k : String, k ≠ "guid" → k ∉ registryFields →
      lastVal bag k = some v →
      lastVal (bag ++ (("guid", freshGuid) :: freshRegistries)) k = some v := by
    intro k hg hk hv
    rw [lastVal_append, htail k hg hk, hv]
    rfl
  simp only [eventObject, entityDescriptionObject, entityObject]
  refine ⟨?_, ?_, ?_, ?_, ?_, ?_⟩
  · intro h
    refine ⟨readField_append_of_some _ _ _ _ h, ?_, ?_⟩
    · exact readField_append_of_some _ _ _ _ (hbase _ (by decide) h)
    · exact readField_append_of_some _ _ _ _
        (hent _ (by decide) (by decide) h)
  · intro h
    refine ⟨readField_append_of_some _ _ _ _ h,
      readField_append_of_some _ _ _ _ (hbase _ (by decide) h)⟩
  · intro h
    refine ⟨readField_append_of_some _ _ _ _ h,
      readField_append_of_some _ _ _ _ (hbase _ (by decide) h)⟩
  · intro h
    constructor
    · rw [readField_append_of_none _ _ _ h]
      rfl
    · have : lastVal (bag ++ freshRegistries) "name" = none := by
        rw [lastVal_append, lastVal_freshRegistries_of_not_mem _ (by decide), h]
        rfl
      rw [readField_append_of_none _ _ _ this]
      rfl
  · refine readField_append_of_some _ _ _ _ ?_
    refine Eq.trans (lastVal_append _ _ _) ?_
    rw [lastVal_cons, lastVal_freshRegistries_of_not_mem _ (by decide)]
    cases lastVal bag "guid" <;> rfl
  · intro rk hrk
    refine readField_append_of_some _ _ _ _ ?_
    refine Eq.trans (lastVal_append _ _ _) ?_
    rw [lastVal_cons, lastVal_freshRegistries_of_mem _ hrk]
    cases lastVal bag rk <;> rfl

/-- Witness for C9 at a concrete bag that overrides every built-in field. -/
theorem C9_bag_merge_order_witness :
    (lastVal [("name", JSVal.str "x"), ("guid", JSVal.str "g"),
        ("time", JSVal.num 3)] "name" = some (JSVal.str "x")) ∧
    readField (eventObject "orig" (JSVal.str "u1")
        [("name", JSVal.str "x"), ("guid", JSVal.str "g"),
         ("time", JSVal.num 3)]) "name" = JSVal.str "x" ∧
    readField (entityObject
        (entityDescriptionObject "orig" (JSVal.str "u2")
          [("guid", JSVal.str "g")])
        (JSVal.str "fresh") [("guid", JSVal.str "g")]) "guid" =
      JSVal.str "fresh" := by
  refine ⟨by decide, ?_, ?_⟩
  · exact ((C9_bag_merge_order "orig" (JSVal.str "u1") (JSVal.str "fresh")
      [("name", JSVal.str "x"), ("guid", JSVal.str "g"), ("time", JSVal.num 3)]
      [] (JSVal.str "x")).1 (by decide)).1
  · exact (C9_bag_merge_order "orig" (JSVal.str "u1") (JSVal.str "fresh")
      [("guid", JSVal.str "g")]
      (entityDescriptionObject "orig" (JSVal.str "u2") [("guid", JSVal.str "g")])
      (JSVal.str "x")).2.2.2.2.1

theorem foldl_store_frame (g tgt : Nat) (e : Event) (hs : List BoundHandler) :
    ∀ s : Store, (∀ h ∈ hs, h.receiver = tgt) → g ≠ tgt →
      hs.foldl (fun s h => storeSet s h.receiver (h.fn e (s h.receiver))) s g =
        s g := by
  induction hs with
  | nil => intro s _ _; rfl
  | cons h rest ih =>
    intro s hrecv hg
    rw [List.foldl_cons,
      ih _ (fun h' hh' => hrecv h' (List.mem_cons_of_mem _ hh')) hg]
    simp [storeSet, hrecv h (List.mem_cons_self _ _), hg]

theorem handleEvent_frame (ent : Entity) (e : Event) (s : Store) (g : Nat)
    (hrecv : ∀ h ∈ ent.eventHandlers e.name, h.receiver = ent.guid)
    (hg : g ≠ ent.guid) : handleEvent ent e s g = s g := by
  unfold handleEvent
  exact foldl_store_frame g ent.guid e _ s hrecv hg

/-- C6: two entities instantiated from the same template have disjoint
state: invoking `handleEvent` on the first (whose handlers are all bound
copies with the first instance as receiver) leaves the second instance's bag
and the template's default bag exactly unchanged, whatever the handlers do
and whatever the instantiation-time properties were. -/
theorem C6_entity_independence (d : EntityDescription) (gA gB : Nat)
    (bagA bagB : Obj) (s : Store) (e : Event)
    (hAB : gA ≠ gB) (hAD : gA ≠ d.guid) :
    handleEvent (instantiate d gA bagA s).1 e
        (instantiate d gB bagB (instantiate d gA bagA s).2).2 gB =
      (instantiate d gB bagB (instantiate d gA bagA s).2).2 gB ∧
    handleEvent (instantiate d gA bagA s).1 e
        (instantiate d gB bagB (instantiate d gA bagA s).2).2 d.guid =
      (instantiate d gB bagB (instantiate d gA bagA s).2).2 d.guid := by
  have hrecv : ∀ h ∈ (instantiate d gA bagA s).1.eventHandlers e.name,
      h.receiver = (instantiate d gA bagA s).1.guid := by
    intro h hh
    simp only [instantiate, List.mem_map] at hh
    obtain ⟨h0, _, rfl⟩ := hh
    rfl
  exact ⟨handleEvent_frame _ _ _ _ hrecv
      (by simpa [instantiate] using Ne.symm hAB),
    handleEvent_frame _ _ _ _ hrecv
      (by simpa [instantiate] using Ne.symm hAD)⟩

/-- Witness for C6: a concrete template with one handler that increments the
instance's `x` property; after dispatch on instance `1`, instance `2` and
the template (guid `0`) read unchanged. -/
theorem C6_entity_independence_witness :
    (handleEvent
        (instantiate
          ⟨"cell", 0, fun n =>
            if n = "tick" then [fun _ _ => [("x", JSVal.num 1)]] else []⟩
          1 [] (fun g => if g = 0 then [("x", JSVal.num 0)] else [])).1
        ⟨"tick", none, 9⟩
        (instantiate
          ⟨"cell", 0, fun n =>
            if n = "tick" then [fun _ _ => [("x", JSVal.num 1)]] else []⟩
          2 []
          (instantiate
            ⟨"cell", 0, fun n =>
              if n = "tick" then [fun _ _ => [("x", JSVal.num 1)]] else []⟩
            1 [] (fun g => if g = 0 then [("x", JSVal.num 0)] else [])).2).2) 2 =
      (instantiate
          ⟨"cell", 0, fun n =>
            if n = "tick" then [fun _ _ => [("x", JSVal.num 1)]] else []⟩
          2 []
          (instantiate
            ⟨"cell", 0, fun n =>
              if n = "tick" then [fun _ _ => [("x", JSVal.num 1)]] else []⟩
            1 [] (fun g => if g = 0 then [("x", JSVal.num 0)] else [])).2).2 2 := by
  exact (C6_entity_independence
    ⟨"cell", 0, fun n =>
      if n = "tick" then [fun _ _ => [("x", JSVal.num 1)]] else []⟩
    1 2 [] [] (fun g => if g = 0 then [("x", JSVal.num 0)] else [])
    ⟨"tick", none, 9⟩ (by decide) (by decide)).1

theorem flattenBuckets_congr (f g : String → List Event) (l : List String)
    (h : ∀ s, f s = g s) : flattenBuckets f l = flattenBuckets g l := by
  induction l generalizing f g with
  | nil => rfl
  | cons k rest ih =>
    simp only [flattenBuckets, h k]
    exact congrArg (fun l => g k ++ l)
      (ih (updateQueue f k []) (updateQueue g k [])
        (fun s => by by_cases hs : s = k <;> simp [updateQueue, hs, h s]))

theorem scanQueues_eq_none_iff (f : String → List Event) (l : List String) :
    scanQueues f l = none ↔ ∀ k ∈ l, f k = [] := by
  induction l with
  | nil => simp [scanQueues]
  | cons k rest ih =>
    cases hk : f k with
    | nil => simp [scanQueues, hk, ih]
    | cons e es => simp [scanQueues, hk]

theorem flattenBuckets_eq_nil_iff (f : String → List Event)
    (l : List String) : flattenBuckets f l = [] ↔ ∀ k ∈ l, f k = [] := by
  induction l generalizing f with
  | nil => simp [flattenBuckets]
  | cons k rest ih =>
    simp only [flattenBuckets, List.append_eq_nil, List.mem_cons]
    constructor
    · rintro ⟨hk, hrest⟩ k' (rfl | hk')
      · exact hk
      · have := (ih _).mp hrest k' hk'
        by_cases h : k' = k
        · exact h ▸ hk
        · simpa [updateQueue, h] using this
    · intro h
      refine ⟨h k (Or.inl rfl), (ih _).mpr ?_⟩
      intro k' hk'
      by_cases hkk : k' = k <;> simp [updateQueue, hkk, h k' (Or.inr hk')]

theorem scanQueues_step (f : String → List Event) (l : List String)
    (k : String) (e : Event) (es : List Event)
    (h : scanQueues f l = some (k, e, es)) :
    f k = e :: es ∧ k ∈ l ∧
      flattenBuckets f l = e :: flattenBuckets (updateQueue f k es) l := by
  induction l with
  | nil => exact absurd h (by simp [scanQueues])
  | cons k0 rest ih =>
    cases hk0 : f k0 with
    | cons e0 es0 =>
      simp only [scanQueues, hk0] at h
      obtain ⟨rfl, rfl, rfl⟩ : k0 = k ∧ e0 = e ∧ es0 = es := by
        simpa using h
      refine ⟨hk0, by simp, ?_⟩
      have hcg : flattenBuckets
            (updateQueue (updateQueue f k0 es0) k0 []) rest =
          flattenBuckets (updateQueue f k0 []) rest :=
        flattenBuckets_congr _ _ _
          (fun s => by by_cases hs : s = k0 <;> simp [updateQueue, hs])
      rw [show flattenBuckets f (k0 :: rest) =
            f k0 ++ flattenBuckets (updateQueue f k0 []) rest from rfl,
        show flattenBuckets (updateQueue f k0 es0) (k0 :: rest) =
            updateQueue f k0 es0 k0 ++
              flattenBuckets (updateQueue (updateQueue f k0 es0) k0 []) rest
          from rfl,
        hk0, hcg]
      simp [updateQueue]
    | nil =>
      simp only [scanQueues, hk0] at h
      obtain ⟨hfk, hkmem, hflat⟩ := ih h
      have hne : k ≠ k0 := by
        intro hkk
        rw [hkk, hk0] at hfk
        exact absurd hfk (by simp)
      refine ⟨hfk, by simp [hkmem], ?_⟩
      have h1 : flattenBuckets (updateQueue f k0 []) rest =
          flattenBuckets f rest :=
        flattenBuckets_congr _ _ _
          (fun s => by by_cases hs : s = k0 <;> simp [updateQueue, hs, hk0])
      have h2 : flattenBuckets (updateQueue (updateQueue f k es) k0 []) rest =
          flattenBuckets (updateQueue f k es) rest :=
        flattenBuckets_congr _ _ _ (fun s => by
          by_cases hs : s = k0
          · subst hs
            simp [updateQueue, Ne.symm hne, hk0]
          · simp [updateQueue, hs])
      rw [show flattenBuckets f (k0 :: rest) =
            f k0 ++ flattenBuckets (updateQueue f k0 []) rest from rfl,
        show flattenBuckets (updateQueue f k es) (k0 :: rest) =
            updateQueue f k es k0 ++
              flattenBuckets (updateQueue (updateQueue f k es) k0 []) rest
          from rfl,
        hk0, h1, h2, hflat]
      simp [updateQueue, Ne.symm hne, hk0]

/-! ### The reference drain order: permutation, rank order, stability -/
theorem strIndex_append_of_not_mem (k : String) (p s : List String)
    (h : k ∉ p) : strIndex k (p ++ s) = p.length + strIndex k s := by
  induction p with
  | nil => simp [strIndex]
  | cons a as ih =>
    have hne : ¬ a = k := fun he => h (by simp [he])
    have h2 := ih (fun hm => h (by simp [hm]))
    have h2' : strIndex k (as.append s) = as.length + strIndex k s := h2
    simp only [List.cons_append, strIndex, if_neg hne, h2', List.length_cons]
    omega

theorem bucketRank_eq_strIndex (test : String → String → Bool)
    (pl : List String) (n k : String) (h : findKey test pl n = some k) :
    bucketRank test pl n = some (strIndex k pl) := by
  induction pl with
  | nil => exact absurd h (by simp [findKey])
  | cons p0 rest ih =>
    by_cases h0 : test p0 n
    · simp only [findKey, List.find?, h0] at h
      obtain rfl : p0 = k := by simpa using h
      simp [bucketRank, h0, strIndex]
    · have h0f : test p0 n = false := by simpa using h0
      simp only [findKey, List.find?, h0f] at h
      have hk := ih h
      have htk : test k n := by
        have := List.find?_some h
        simpa using this
      have hne : ¬ p0 = k := fun he => h0 (by rw [he]; exact htk)
      simp [bucketRank, h0f, hk, strIndex, hne]

theorem keyRank_of_key_eq (pl p s : List String)
    (key : Event → Option String) (e : Event) (k : String)
    (hpl : pl = p ++ s) (hke : key e = some k) (hkp : k ∉ p) :
    keyRank pl key e = p.length + strIndex k s := by
  simp [keyRank, hke, hpl, strIndex_append_of_not_mem _ _ _ hkp]

theorem pairwise_le_of_const (f : Event → Nat) (c : Nat) (l : List Event)
    (h : ∀ a ∈ l, f a = c) : l.Pairwise (fun a b => f a ≤ f b) := by
  induction l with
  | nil => exact List.Pairwise.nil
  | cons a as ih =>
    refine List.Pairwise.cons ?_ (ih fun b hb => h b (by simp [hb]))
    intro b hb
    rw [h a (by simp), h b (by simp [hb])]

theorem seqDrain_of_bucketsChar (key : Event → Option String) :
    ∀ (pl' : List String) (evs : List Event) (f : String → List Event),
      (∀ k, f k = evs.filter (fun e => key e == some k)) →
      flattenBuckets f pl' = seqDrain key pl' evs := by
  intro pl'
  induction pl' with
  | nil => intro evs f hf; rfl
  | cons k rest ih =>
    intro evs f hf
    have hupd : ∀ k', updateQueue f k [] k' =
        (evs.filter (fun e => !(key e == some k))).filter
          (fun e => key e == some k') := by
      intro k'
      by_cases hkk : k' = k
      · subst hkk
        rw [List.filter_filter]
        rw [updateQueue]
        simp
      · rw [List.filter_filter, updateQueue, if_neg hkk, hf k']
        refine (List.filter_congr ?_)
        intro e _
        cases hke : (key e == some k') with
        | false => simp
        | true =>
          have h2 : key e = some k' := by simpa using hke
          simp [h2, hkk]
    rw [show flattenBuckets f (k :: rest) =
          f k ++ flattenBuckets (updateQueue f k []) rest from rfl,
      hf k, ih _ _ hupd]
    rfl

theorem seqDrain_spec (key : Event → Option String) (pl : List String) :
    ∀ (s p : List String) (evs : List Event), pl = p ++ s →
      (∀ e ∈ evs, ∃ k, key e = some k ∧ k ∈ s ∧ k ∉ p) →
      List.Perm (seqDrain key s evs) evs ∧
      (seqDrain key s evs).Pairwise
        (fun a b => keyRank pl key a ≤ keyRank pl key b) ∧
      (∀ r : Nat,
        (seqDrain key s evs).filter (fun e => keyRank pl key e == r) =
          evs.filter (fun e => keyRank pl key e == r)) := by
  intro s
  induction s with
  | nil =>
    intro p evs _ hk
    have hevs : evs = [] := by
      cases evs with
      | nil => rfl
      | cons e es =>
        obtain ⟨k, _, hk2, _⟩ := hk e (by simp)
        simp at hk2
    subst hevs
    exact ⟨List.Perm.refl _, by simp [seqDrain], fun r => by simp [seqDrain]⟩
  | cons k t ih =>
    intro p evs hpl hk
    have hpl' : pl = (p ++ [k]) ++ t := by simpa using hpl
    have hkmem : ∀ e ∈ evs.filter (fun e => !(key e == some k)),
        ∃ k'', key e = some k'' ∧ k'' ∈ t ∧ k'' ∉ p ++ [k] := by
      intro e he
      rw [List.mem_filter] at he
      obtain ⟨k'', hke, hks, hkp⟩ := hk e he.1
      have hne : k'' ≠ k := by
        intro he2
        subst he2
        rw [hke] at he
        simp at he
      refine ⟨k'', hke, ?_, ?_⟩
      · rcases List.mem_cons.mp hks with rfl | hks2
        · exact absurd rfl hne
        · exact hks2
      · simp [hkp, hne]
    obtain ⟨ihPerm, ihPw, ihFil⟩ :=
      ih (p ++ [k]) (evs.filter (fun e => !(key e == some k))) hpl' hkmem
    have hrankk : ∀ e ∈ evs, key e = some k → keyRank pl key e = p.length := by
      intro e he hke
      obtain ⟨k', hk'e, _, hk'p⟩ := hk e he
      have hkeq : k = k' := by rw [hke] at hk'e; simpa using hk'e
      subst hkeq
      rw [keyRank_of_key_eq pl p (k :: t) key e k hpl hke hk'p]
      simp [strIndex]
    have hrankne : ∀ e ∈ evs, ∀ k', key e = some k' → k' ≠ k →
        keyRank pl key e = p.length + strIndex k' t + 1 := by
      intro e he k' hke hkk
      obtain ⟨k2, hk2e, _, hk2p⟩ := hk e he
      have hkeq : k' = k2 := by rw [hke] at hk2e; simpa using hk2e
      subst hkeq
      rw [keyRank_of_key_eq pl p (k :: t) key e k' hpl hke hk2p]
      have hsi : strIndex k' (k :: t) = strIndex k' t + 1 := by
        simp [strIndex, Ne.symm hkk]
      omega
    have hArank : ∀ a ∈ evs.filter (fun e => key e == some k),
        keyRank pl key a = p.length := by
      intro a ha
      rw [List.mem_filter] at ha
      exact hrankk a ha.1 (by simpa using ha.2)
    have hBrank : ∀ b ∈ seqDrain key t
        (evs.filter (fun e => !(key e == some k))),
        p.length + 1 ≤ keyRank pl key b := by
      intro b hb
      have hbevs' : b ∈ evs.filter (fun e => !(key e == some k)) :=
        ihPerm.mem_iff.mp hb
      have hbevs : b ∈ evs := (List.mem_filter.mp hbevs').1
      obtain ⟨k'', hke, _, hkp⟩ := hkmem b hbevs'
      have hkk : k'' ≠ k := fun he => hkp (by simp [he])
      rw [hrankne b hbevs k'' hke hkk]
      omega
    refine ⟨?_, ?_, ?_⟩
    · simp only [seqDrain]
      exact (List.Perm.append_left _ ihPerm).trans
        (List.filter_append_perm _ evs)
    · simp only [seqDrain]
      refine List.pairwise_append.mpr
        ⟨pairwise_le_of_const (keyRank pl key) p.length _ hArank, ihPw, ?_⟩
      intro a ha b hb
      rw [hArank a ha]
      exact le_trans (Nat.le_succ _) (hBrank b hb)
    · intro r
      simp only [seqDrain]
      rw [List.filter_append]
      by_cases hr : r = p.length
      · subst hr
        have h1 : (evs.filter (fun e => key e == some k)).filter
            (fun e => keyRank pl key e == p.length) =
            evs.filter (fun e => key e == some k) :=
          List.filter_eq_self.mpr (fun a ha => by simp [hArank a ha])
        have h2 : (seqDrain key t
            (evs.filter (fun e => !(key e == some k)))).filter
            (fun e => keyRank pl key e == p.length) = [] := by
          refine List.filter_eq_nil_iff.mpr (fun b hb => ?_)
          have := hBrank b hb
          simp only [beq_iff_eq]
          omega
        rw [h1, h2, List.append_nil]
        refine (List.filter_congr ?_).symm
        intro e he
        obtain ⟨k', hke, _, _⟩ := hk e he
        by_cases hkk : k' = k
        · subst hkk
          simp [hrankk e he hke, hke]
        · rw [hrankne e he k' hke hkk]
          have hne1 : ¬ (p.length + strIndex k' t + 1 = p.length) := by omega
          have hne2 : ¬ (key e = some k) := by
            rw [hke]
            simp [hkk]
          simp [hne1, hne2]
      · have h1 : (evs.filter (fun e => key e == some k)).filter
            (fun e => keyRank pl key e == r) = [] := by
          refine List.filter_eq_nil_iff.mpr (fun a ha => ?_)
          simp only [beq_iff_eq]
          rw [hArank a ha]
          exact fun he => hr he.symm
        rw [h1, List.nil_append, ihFil r, List.filter_filter]
        refine List.filter_congr ?_
        intro e he
        cases hb : (keyRank pl key e == r) with
        | false => simp
        | true =>
          have hbr : keyRank pl key e = r := by simpa using hb
          have : ¬ (key e = some k) := by
            intro hke
            exact hr ((hbr.symm.trans (hrankk e he hke)))
          simp [this]

/-! ### Priority queue invariants -/
theorem flattenBuckets_update_append (f : String → List Event)
    (l : List String) (k : String) (e : Event) (hk : k ∈ l) :
    (flattenBuckets (updateQueue f k (f k ++ [e])) l).length =
      (flattenBuckets f l).length + 1 := by
  induction l generalizing f with
  | nil => simp at hk
  | cons k0 rest ih =>
    by_cases hkk : k0 = k
    · subst hkk
      have hcg : flattenBuckets
            (updateQueue (updateQueue f k0 (f k0 ++ [e])) k0 []) rest =
          flattenBuckets (updateQueue f k0 []) rest :=
        flattenBuckets_congr _ _ _
          (fun s => by by_cases hs : s = k0 <;> simp [updateQueue, hs])
      rw [show flattenBuckets (updateQueue f k0 (f k0 ++ [e])) (k0 :: rest) =
            updateQueue f k0 (f k0 ++ [e]) k0 ++
              flattenBuckets
                (updateQueue (updateQueue f k0 (f k0 ++ [e])) k0 []) rest
          from rfl,
        show flattenBuckets f (k0 :: rest) =
            f k0 ++ flattenBuckets (updateQueue f k0 []) rest from rfl,
        hcg]
      simp [updateQueue]
      omega
    · have hkrest : k ∈ rest := by
        rcases List.mem_cons.mp hk with rfl | h
        · exact absurd rfl hkk
        · exact h
      have hk0k : ¬ k = k0 := fun h2 => hkk h2.symm
      have hcg : flattenBuckets
            (updateQueue (updateQueue f k (f k ++ [e])) k0 []) rest =
          flattenBuckets
            (updateQueue (updateQueue f k0 [])
              k ((updateQueue f k0 []) k ++ [e])) rest :=
        flattenBuckets_congr _ _ _ (fun s => by
          by_cases hs : s = k0
          · subst hs
            simp [updateQueue, hkk, hk0k]
          · by_cases hs2 : s = k <;>
              simp [updateQueue, hs, hs2, hkk, hk0k])
      rw [show flattenBuckets (updateQueue f k (f k ++ [e])) (k0 :: rest) =
            updateQueue f k (f k ++ [e]) k0 ++
              flattenBuckets
                (updateQueue (updateQueue f k (f k ++ [e])) k0 []) rest
          from rfl,
        show flattenBuckets f (k0 :: rest) =
            f k0 ++ flattenBuckets (updateQueue f k0 []) rest from rfl,
        hcg]
      simp only [List.length_append, ih _ hkrest]
      have hup : updateQueue f k (f k ++ [e]) k0 = f k0 := by
        simp [updateQueue, hkk]
      rw [hup]
      omega

theorem toList_init (pl : List String) :
    (PriorityQueue.init pl).toList = [] := by
  refine (flattenBuckets_eq_nil_iff _ _).mpr ?_
  intro k _
  rfl

theorem PQWF_init (pl : List String) : PQWF (PriorityQueue.init pl) := by
  constructor
  · rw [toList_init]
    rfl
  · simp [PriorityQueue.init, PriorityQueue.setPriorities, effectivePriorities]

theorem PQ_add_characterize (test : String → String → Bool)
    (pq : PriorityQueue) (e : Event) (pq' : PriorityQueue)
    (h : pq.add test e = some pq') :
    ∃ k, findKey test pq.priorityList e.name = some k ∧ k ∈ pq.priorityList ∧
      pq' = { pq with
        eventQueues := updateQueue pq.eventQueues k (pq.eventQueues k ++ [e])
        length := pq.length + 1 } := by
  unfold PriorityQueue.add at h
  split at h
  · exact absurd h (by simp)
  · next k hfind =>
    obtain rfl : _ = pq' := by simpa using h
    exact ⟨k, hfind, List.mem_of_find?_eq_some hfind, rfl⟩

theorem PQ_add_some (test : String → String → Bool) (pq : PriorityQueue)
    (e : Event) (hw : "" ∈ pq.priorityList) (ht : test "" e.name = true) :
    ∃ pq', pq.add test e = some pq' := by
  unfold PriorityQueue.add
  have : (pq.priorityList.find? (fun p => test p e.name)).isSome := by
    rw [List.find?_isSome]
    exact ⟨"", hw, ht⟩
  rcases hf : pq.priorityList.find? (fun p => test p e.name) with _ | k
  · rw [hf] at this; simp at this
  · exact ⟨_, rfl⟩

theorem PQWF_add (test : String → String → Bool) (pq : PriorityQueue)
    (e : Event) (pq' : PriorityQueue) (h : PQWF pq)
    (hadd : pq.add test e = some pq') :
    PQWF pq' ∧ pq'.length = pq.length + 1 ∧
      pq'.priorityList = pq.priorityList := by
  obtain ⟨k, _, hkmem, rfl⟩ := PQ_add_characterize test pq e pq' hadd
  refine ⟨⟨?_, h.wildcard⟩, rfl, rfl⟩
  show pq.length + 1 = (flattenBuckets _ pq.priorityList).length
  rw [flattenBuckets_update_append pq.eventQueues pq.priorityList k e hkmem,
    h.lenEq]
  rfl

theorem PQ_next_none (pq : PriorityQueue) (h : pq.length = 0) :
    pq.next = (none, pq) := by
  unfold PriorityQueue.next
  rw [if_pos h]

theorem PQ_next_some (pq : PriorityQueue) (h : PQWF pq)
    (hlen : 0 < pq.length) :
    ∃ e pq', pq.next = (some e, pq') ∧ pq.toList = e :: pq'.toList ∧
      pq'.length = pq.length - 1 ∧
      pq'.priorityList = pq.priorityList ∧ PQWF pq' := by
  have hne : pq.length ≠ 0 := Nat.pos_iff_ne_zero.mp hlen
  have hflat : pq.toList ≠ [] := by
    intro hnil
    rw [h.lenEq, hnil] at hlen
    simp at hlen
  rcases hscan : scanQueues pq.eventQueues pq.priorityList with _ | ⟨k, e, es⟩
  · exact absurd ((flattenBuckets_eq_nil_iff _ _).mpr
      ((scanQueues_eq_none_iff _ _).mp hscan)) hflat
  · obtain ⟨hfk, hkmem, hstep⟩ := scanQueues_step _ _ _ _ _ hscan
    refine ⟨e, { pq with
        eventQueues := updateQueue pq.eventQueues k es
        length := pq.length - 1 }, ?_, ?_, rfl, rfl, ?_⟩
    · unfold PriorityQueue.next
      rw [if_neg hne, hscan]
    · exact hstep
    · constructor
      · have hl := congrArg List.length hstep
        simp only [List.length_cons, PriorityQueue.toList] at hl
        have hlen2 : pq.length =
            (flattenBuckets pq.eventQueues pq.priorityList).length := h.lenEq
        show pq.length - 1 =
          (flattenBuckets (updateQueue pq.eventQueues k es)
            pq.priorityList).length
        omega
      · exact h.wildcard

theorem PQReach_wf (test : String → String → Bool) (pq : PriorityQueue)
    (h : PQReach test pq) : PQWF pq := by
  induction h with
  | init pl => exact PQWF_init pl
  | addStep hr hadd ih => exact (PQWF_add _ _ _ _ ih hadd).1
  | nextStep hr ih =>
    rename_i pq0
    by_cases hlen : pq0.length = 0
    · rw [PQ_next_none pq0 hlen]
      exact ih
    · obtain ⟨e, pq', hnext, _, _, _, hwf⟩ :=
        PQ_next_some pq0 ih (Nat.pos_of_ne_zero hlen)
      rw [hnext]
      exact hwf

/-- C5: the effective pattern list of a constructed priority bucket queue
always ends with the catch-all pattern `""`, whose regex accepts every name
(hypothesis `ht`): on every reachable queue, `add` always finds a bucket
(never reaching the crash of an unmatched name), and `next()` returns an
event whenever `length > 0` (the all-buckets-empty fallback is
unreachable). -/
theorem C5_wildcard_catch_all (test : String → String → Bool)
    (priorityList : List String) (pq : PriorityQueue) (e : Event)
    (ht : ∀ s, test "" s = true) (hr : PQReach test pq) :
    (PriorityQueue.init priorityList).priorityList.getLast? = some "" ∧
    (∃ pq', pq.add test e = some pq') ∧
    (0 < pq.length → ∃ ev pq', pq.next = (some ev, pq')) := by
  have hwf := PQReach_wf test pq hr
  refine ⟨?_, ?_, ?_⟩
  · simp [PriorityQueue.init, PriorityQueue.setPriorities, effectivePriorities]
  · exact PQ_add_some test pq e hwf.wildcard (ht e.name)
  · intro hlen
    obtain ⟨ev, pq', hnext, _⟩ := PQ_next_some pq hwf hlen
    exact ⟨ev, pq', hnext⟩

/-- Witness for C5 at a concrete queue: two adds reach a queue of length 2;
`add` succeeds and `next` yields an event. -/
theorem C5_wildcard_catch_all_witness :
    ((PriorityQueue.init ["a"]).priorityList.getLast? = some "") ∧
    (∃ pq', (PriorityQueue.init ["a"]).add (fun p n => p == "" || p == n)
        ⟨"b", none, 0⟩ = some pq') ∧
    (0 < (PriorityQueue.init ["a"]).length →
      ∃ ev pq', (PriorityQueue.init ["a"]).next = (some ev, pq')) :=
  C5_wildcard_catch_all (fun p n => p == "" || p == n) ["a"]
    (PriorityQueue.init ["a"]) ⟨"b", none, 0⟩ (fun s => by simp)
    (PQReach.init ["a"])

theorem timeKeys_nil : timeKeys [] = [] := rfl

theorem timeKeys_cons (hd : Int × PriorityQueue)
    (rest : List (Int × PriorityQueue)) :
    timeKeys (hd :: rest) = hd.1 :: timeKeys rest := rfl

theorem storeTime_cons_eq (hd : Int × PriorityQueue)
    (rest : List (Int × PriorityQueue)) (t : Int) (q : PriorityQueue)
    (h : hd.1 = t) : storeTime (hd :: rest) t q = (t, q) :: rest := by
  obtain ⟨t0, q0⟩ := hd
  simp only at h
  simp [storeTime, h]

theorem storeTime_cons_ne (hd : Int × PriorityQueue)
    (rest : List (Int × PriorityQueue)) (t : Int) (q : PriorityQueue)
    (h : ¬ hd.1 = t) : storeTime (hd :: rest) t q = hd :: storeTime rest t q := by
  obtain ⟨t0, q0⟩ := hd
  simp only at h
  simp [storeTime, h]

theorem eraseTime_nil (t : Int) : eraseTime [] t = [] := rfl

theorem eraseTime_cons_eq (hd : Int × PriorityQueue)
    (rest : List (Int × PriorityQueue)) (t : Int) (h : hd.1 = t) :
    eraseTime (hd :: rest) t = eraseTime rest t := by
  simp [eraseTime, List.filter_cons, h]

theorem eraseTime_cons_ne (hd : Int × PriorityQueue)
    (rest : List (Int × PriorityQueue)) (t : Int) (h : ¬ hd.1 = t) :
    eraseTime (hd :: rest) t = hd :: eraseTime rest t := by
  simp [eraseTime, List.filter_cons, h]

theorem totalLen_nil : totalLen [] = 0 := rfl

theorem totalLen_cons (hd : Int × PriorityQueue)
    (rest : List (Int × PriorityQueue)) :
    totalLen (hd :: rest) = hd.2.length + totalLen rest := rfl

theorem lookupTime_eq_none_iff (tqs : List (Int × PriorityQueue)) (t : Int) :
    lookupTime tqs t = none ↔ t ∉ timeKeys tqs := by
  induction tqs with
  | nil => simp [lookupTime_nil, timeKeys_nil]
  | cons hd rest ih =>
    rw [lookupTime_cons, timeKeys_cons]
    by_cases h : hd.1 = t
    · simp [h]
    · have h' : ¬ t = hd.1 := fun he => h he.symm
      simp [h, ih, h']

theorem lookupTime_isSome_iff (tqs : List (Int × PriorityQueue)) (t : Int) :
    (lookupTime tqs t).isSome ↔ t ∈ timeKeys tqs := by
  rcases h : lookupTime tqs t with _ | q
  · simpa [h] using (lookupTime_eq_none_iff tqs t).mp h
  · simp only [Option.isSome_some, true_iff]
    by_contra hmem
    rw [(lookupTime_eq_none_iff tqs t).mpr hmem] at h
    exact absurd h (by simp)

theorem lookupTime_eraseTime (tqs : List (Int × PriorityQueue)) (t t' : Int) :
    lookupTime (eraseTime tqs t) t' =
      if t' = t then none else lookupTime tqs t' := by
  induction tqs with
  | nil => by_cases h : t' = t <;> simp [eraseTime_nil, lookupTime_nil, h]
  | cons hd rest ih =>
    by_cases h1 : hd.1 = t
    · rw [eraseTime_cons_eq hd rest t h1, ih]
      by_cases h2 : t' = t
      · rw [if_pos h2, if_pos h2]
      · have h3 : ¬ hd.1 = t' := fun he => h2 (he.symm.trans h1)
        rw [if_neg h2, if_neg h2, lookupTime_cons, if_neg h3]
    · rw [eraseTime_cons_ne hd rest t h1, lookupTime_cons, lookupTime_cons]
      by_cases h2 : hd.1 = t'
      · have h3 : ¬ t' = t := fun he => h1 (h2.trans he)
        rw [if_pos h2, if_pos h2, if_neg h3]
      · rw [if_neg h2, if_neg h2, ih]

theorem timeKeys_eraseTime_not_mem (tqs : List (Int × PriorityQueue))
    (t t' : Int) (h : t' ∈ timeKeys (eraseTime tqs t)) :
    t' ∈ timeKeys tqs ∧ t' ≠ t := by
  induction tqs with
  | nil => simp [eraseTime_nil, timeKeys_nil] at h
  | cons hd rest ih =>
    by_cases h1 : hd.1 = t
    · rw [eraseTime_cons_eq hd rest t h1] at h
      obtain ⟨hmem, hne⟩ := ih h
      exact ⟨by rw [timeKeys_cons]; exact List.mem_cons_of_mem _ hmem, hne⟩
    · rw [eraseTime_cons_ne hd rest t h1, timeKeys_cons] at h
      rcases List.mem_cons.mp h with rfl | hmem
      · exact ⟨by rw [timeKeys_cons]; exact List.mem_cons_self _ _, h1⟩
      · obtain ⟨hmem2, hne⟩ := ih hmem
        exact ⟨by rw [timeKeys_cons]; exact List.mem_cons_of_mem _ hmem2, hne⟩

theorem timeKeys_storeTime_mem (tqs : List (Int × PriorityQueue)) (t : Int)
    (q : PriorityQueue) (h : t ∈ timeKeys tqs) :
    timeKeys (storeTime tqs t q) = timeKeys tqs := by
  induction tqs with
  | nil => simp [timeKeys_nil] at h
  | cons hd rest ih =>
    by_cases h1 : hd.1 = t
    · rw [storeTime_cons_eq hd rest t q h1, timeKeys_cons, timeKeys_cons, h1]
    · rw [timeKeys_cons] at h
      rcases List.mem_cons.mp h with he | hmem
      · exact absurd he.symm h1
      · rw [storeTime_cons_ne hd rest t q h1, timeKeys_cons, timeKeys_cons,
          ih hmem]

theorem timeKeys_storeTime_not_mem (tqs : List (Int × PriorityQueue))
    (t : Int) (q : PriorityQueue) (h : t ∉ timeKeys tqs) :
    timeKeys (storeTime tqs t q) = timeKeys tqs ++ [t] := by
  induction tqs with
  | nil => rfl
  | cons hd rest ih =>
    have h1 : ¬ hd.1 = t := fun he => h (by rw [timeKeys_cons, he]; simp)
    have hmem : t ∉ timeKeys rest := fun hm =>
      h (by rw [timeKeys_cons]; exact List.mem_cons_of_mem _ hm)
    rw [storeTime_cons_ne hd rest t q h1, timeKeys_cons, timeKeys_cons,
      ih hmem, List.cons_append]

theorem totalLen_storeTime_none (tqs : List (Int × PriorityQueue)) (t : Int)
    (q : PriorityQueue) (h : lookupTime tqs t = none) :
    totalLen (storeTime tqs t q) = totalLen tqs + q.length := by
  induction tqs with
  | nil => simp [storeTime, totalLen_cons, totalLen_nil]
  | cons hd rest ih =>
    rw [lookupTime_cons] at h
    by_cases h1 : hd.1 = t
    · rw [if_pos h1] at h
      exact absurd h (by simp)
    · rw [if_neg h1] at h
      rw [storeTime_cons_ne hd rest t q h1, totalLen_cons, totalLen_cons,
        ih h]
      omega

theorem totalLen_storeTime_some (tqs : List (Int × PriorityQueue)) (t : Int)
    (q0 q : PriorityQueue) (h : lookupTime tqs t = some q0) :
    totalLen (storeTime tqs t q) + q0.length = totalLen tqs + q.length := by
  induction tqs with
  | nil => exact absurd h (by simp [lookupTime_nil])
  | cons hd rest ih =>
    rw [lookupTime_cons] at h
    by_cases h1 : hd.1 = t
    · rw [if_pos h1] at h
      obtain rfl : hd.2 = q0 := by simpa using h
      rw [storeTime_cons_eq hd rest t q h1, totalLen_cons, totalLen_cons]
      show q.length + totalLen rest + hd.2.length =
        hd.2.length + totalLen rest + q.length
      omega
    · rw [if_neg h1] at h
      rw [storeTime_cons_ne hd rest t q h1, totalLen_cons, totalLen_cons]
      have := ih h
      omega

theorem totalLen_eraseTime (tqs : List (Int × PriorityQueue)) (t : Int)
    (q0 : PriorityQueue) (hnd : (timeKeys tqs).Nodup)
    (h : lookupTime tqs t = some q0) :
    totalLen (eraseTime tqs t) + q0.length = totalLen tqs := by
  induction tqs with
  | nil => exact absurd h (by simp [lookupTime_nil])
  | cons hd rest ih =>
    rw [timeKeys_cons, List.nodup_cons] at hnd
    rw [lookupTime_cons] at h
    by_cases h1 : hd.1 = t
    · rw [if_pos h1] at h
      obtain rfl : hd.2 = q0 := by simpa using h
      have hnomem : t ∉ timeKeys rest := h1 ▸ hnd.1
      have herase : eraseTime rest t = rest := by
        unfold eraseTime
        refine List.filter_eq_self.mpr ?_
        intro p hp
        have hne : p.1 ≠ t := fun he => hnomem (by
          have : p.1 ∈ timeKeys rest := List.mem_map_of_mem _ hp
          rw [he] at this
          exact this)
        simp [hne]
      rw [eraseTime_cons_eq hd rest t h1, herase, totalLen_cons]
      omega
    · rw [if_neg h1] at h
      rw [eraseTime_cons_ne hd rest t h1, totalLen_cons, totalLen_cons]
      have := ih hnd.2 h
      omega

theorem timeKeys_nodup_storeTime (tqs : List (Int × PriorityQueue)) (t : Int)
    (q : PriorityQueue) (h : (timeKeys tqs).Nodup) :
    (timeKeys (storeTime tqs t q)).Nodup := by
  by_cases hmem : t ∈ timeKeys tqs
  · rw [timeKeys_storeTime_mem tqs t q hmem]
    exact h
  · rw [timeKeys_storeTime_not_mem tqs t q hmem]
    simp [List.nodup_append, h, hmem]

theorem timeKeys_eraseTime (tqs : List (Int × PriorityQueue)) (t : Int) :
    timeKeys (eraseTime tqs t) = (timeKeys tqs).filter (fun x => x != t) := by
  induction tqs with
  | nil => rfl
  | cons hd rest ih =>
    by_cases h1 : hd.1 = t
    · rw [eraseTime_cons_eq hd rest t h1, ih, timeKeys_cons, List.filter_cons,
        if_neg (show ¬ ((hd.1 != t) = true) by simp [h1])]
    · rw [eraseTime_cons_ne hd rest t h1, timeKeys_cons, timeKeys_cons, ih,
        List.filter_cons, if_pos (show (hd.1 != t) = true by simp [h1])]

theorem timeKeys_nodup_eraseTime (tqs : List (Int × PriorityQueue)) (t : Int)
    (h : (timeKeys tqs).Nodup) : (timeKeys (eraseTime tqs t)).Nodup := by
  rw [timeKeys_eraseTime]
  exact h.filter _

theorem minKey?_spec (tqs : List (Int × PriorityQueue)) (m : Int)
    (h : minKey? tqs = some m) : m ∈ timeKeys tqs ∧
      ∀ t ∈ timeKeys tqs, m ≤ t := by
  induction tqs generalizing m with
  | nil => exact absurd h (by simp [minKey?])
  | cons hd rest ih =>
    rw [minKey?] at h
    rcases hrest : minKey? rest with _ | m0
    · rw [hrest] at h
      obtain rfl : hd.1 = m := by simpa using h
      have hempty : rest = [] := by
        cases rest with
        | nil => rfl
        | cons a b => rw [minKey?] at hrest; rcases h2 : minKey? b with _ | x <;>
            rw [h2] at hrest <;> exact absurd hrest (by simp)
      subst hempty
      simp [timeKeys_cons, timeKeys_nil]
    · rw [hrest] at h
      obtain rfl : min hd.1 m0 = m := by simpa using h
      obtain ⟨hm0mem, hm0le⟩ := ih m0 hrest
      rw [timeKeys_cons]
      constructor
      · rcases le_total hd.1 m0 with hle | hle
        · rw [min_eq_left hle]
          exact List.mem_cons_self _ _
        · rw [min_eq_right hle]
          exact List.mem_cons_of_mem _ hm0mem
      · intro t ht
        rcases List.mem_cons.mp ht with rfl | htr
        · exact min_le_left _ _
        · exact le_trans (min_le_right _ _) (hm0le t htr)

theorem minKey?_eq_none_iff (tqs : List (Int × PriorityQueue)) :
    minKey? tqs = none ↔ tqs = [] := by
  cases tqs with
  | nil => simp [minKey?]
  | cons hd rest =>
    rw [minKey?]
    constructor
    · intro h
      rcases hrest : minKey? rest with _ | m0 <;> rw [hrest] at h <;>
        exact absurd h (by simp)
    · intro h
      cases h

theorem maxKey?_spec (tqs : List (Int × PriorityQueue)) (m : Int)
    (h : maxKey? tqs = some m) : ∀ t ∈ timeKeys tqs, t ≤ m := by
  induction tqs generalizing m with
  | nil => simp [timeKeys_nil]
  | cons hd rest ih =>
    rw [maxKey?] at h
    rcases hrest : maxKey? rest with _ | m0
    · rw [hrest] at h
      obtain rfl : hd.1 = m := by simpa using h
      have hempty : rest = [] := by
        cases rest with
        | nil => rfl
        | cons a b => rw [maxKey?] at hrest; rcases h2 : maxKey? b with _ | x <;>
            rw [h2] at hrest <;> exact absurd hrest (by simp)
      subst hempty
      intro t ht
      rcases List.mem_cons.mp (by rw [timeKeys_cons] at ht; exact ht)
        with rfl | htr
      · exact le_refl _
      · simp [timeKeys_nil] at htr
    · rw [hrest] at h
      obtain rfl : max hd.1 m0 = m := by simpa using h
      intro t ht
      rcases List.mem_cons.mp (by rw [timeKeys_cons] at ht; exact ht)
        with rfl | htr
      · exact le_max_left _ _
      · exact le_trans (ih m0 hrest t htr) (le_max_right _ _)

theorem maxKey?_eq_none_iff (tqs : List (Int × PriorityQueue)) :
    maxKey? tqs = none ↔ tqs = [] := by
  cases tqs with
  | nil => simp [maxKey?]
  | cons hd rest =>
    rw [maxKey?]
    constructor
    · intro h
      rcases hrest : maxKey? rest with _ | m0 <;> rw [hrest] at h <;>
        exact absurd h (by simp)
    · intro h
      cases h

theorem EQWF_init (pl : List String) : EQWF (EventQueue.init pl) := by
  constructor
  · intro t pq h
    exact absurd h (by simp [EventQueue.init, lookupTime_nil])
  · intro pq h
    exact absurd h (by simp [EventQueue.init])

/-- Anatomy of a completed `add`: the state it returns. -/
theorem EQ_add_complete (test : String → String → Bool) (eq : EventQueue)
    (e : Event) (time : Option Int) (eq' : EventQueue) (hw : EQWF eq)
    (h : eq.add test e time = some eq') :
    EQWF eq' ∧ eq'.length = eq.length + 1 ∧
      eq'.currentQueue = eq.currentQueue ∧
      eq'.currentTime = eq.currentTime ∧
      eq'.priorityList = eq.priorityList := by
  simp only [EventQueue.add] at h
  split at h
  · exact absurd h (by simp)
  · next q' hq =>
    simp only [Option.some.injEq] at h
    subst h
    have hq0wf : PQWF ((lookupTime eq.timeQueues
        (resolveTime eq.currentTime e.time time)).getD
          (PriorityQueue.init eq.priorityList)) := by
      rcases hl : lookupTime eq.timeQueues
          (resolveTime eq.currentTime e.time time) with _ | q0
      · simpa [hl] using PQWF_init eq.priorityList
      · simpa [hl] using (hw.stored _ _ hl).1
    obtain ⟨hq'wf, hq'len, _⟩ := PQWF_add test _ _ _ hq0wf hq
    refine ⟨⟨?_, ?_⟩, rfl, rfl, rfl, rfl⟩
    · intro t pq hl
      by_cases ht : t = resolveTime eq.currentTime e.time time
      · subst ht
        rw [lookupTime_storeTime_self] at hl
        obtain rfl : q' = pq := by simpa using hl
        exact ⟨hq'wf, by omega⟩
      · rw [lookupTime_storeTime_ne _ _ _ _ ht] at hl
        exact hw.stored t pq hl
    · intro pq hl
      exact hw.current pq hl

theorem EQ_next_zero (eq : EventQueue) (h : eq.length = 0) :
    eq.next = some (none, eq) := by
  unfold EventQueue.next
  rw [if_pos h]

theorem seekQueue_lookup (tqs : List (Int × PriorityQueue)) (fuel : Nat) :
    ∀ (t0 t' : Int) (q : PriorityQueue),
      seekQueue tqs t0 fuel = some (t', q) →
      lookupTime tqs t' = some q ∧ t0 < t' := by
  induction fuel with
  | zero => intro t0 t' q h; simp [seekQueue] at h
  | succ fuel ih =>
    intro t0 t' q h
    rw [seekQueue] at h
    rcases hl : lookupTime tqs (t0 + 1) with _ | q0
    · rw [hl] at h
      obtain ⟨hlk, hlt⟩ := ih (t0 + 1) t' q h
      exact ⟨hlk, by omega⟩
    · rw [hl] at h
      have h2 : some (t0 + 1, q0) = some (t', q) := h
      rw [Option.some.injEq, Prod.mk.injEq] at h2
      obtain ⟨rfl, rfl⟩ := h2
      exact ⟨hl, by omega⟩

theorem seekQueue_finds_aux (tqs : List (Int × PriorityQueue)) (m : Int)
    (q : PriorityQueue) (hlk : lookupTime tqs m = some q)
    (hmin : ∀ k ∈ timeKeys tqs, m ≤ k) :
    ∀ (fuel : Nat) (t0 : Int), (∀ k ∈ timeKeys tqs, t0 < k) →
      m ≤ t0 + fuel → seekQueue tqs t0 fuel = some (m, q) := by
  have hm : m ∈ timeKeys tqs := by
    rw [← lookupTime_isSome_iff, hlk]
    rfl
  intro fuel
  induction fuel with
  | zero =>
    intro t0 hgt hle
    exact absurd (hgt m hm) (by omega)
  | succ fuel ih =>
    intro t0 hgt hle
    rw [seekQueue]
    by_cases hm1 : t0 + 1 = m
    · rw [hm1, hlk]
    · have hlt : t0 + 1 < m := by
        have := hgt m hm
        omega
      have hnone : lookupTime tqs (t0 + 1) = none := by
        rw [lookupTime_eq_none_iff]
        intro hmem
        have := hmin _ hmem
        omega
      rw [hnone]
      exact ih (t0 + 1)
        (fun k hk => by have h1 := hmin k hk; omega)
        (by omega)

theorem seekQueue_finds (tqs : List (Int × PriorityQueue)) (t0 m : Int)
    (hmin : minKey? tqs = some m) (hgt : ∀ k ∈ timeKeys tqs, t0 < k) :
    ∃ q, lookupTime tqs m = some q ∧
      seekQueue tqs t0 (seekFuel tqs t0) = some (m, q) := by
  obtain ⟨hmem, hle⟩ := minKey?_spec tqs m hmin
  obtain ⟨q, hq⟩ : ∃ q, lookupTime tqs m = some q := by
    have := (lookupTime_isSome_iff tqs m).mpr hmem
    rcases h : lookupTime tqs m with _ | q
    · rw [h] at this; simp at this
    · exact ⟨q, rfl⟩
  refine ⟨q, hq, ?_⟩
  rcases hmx : maxKey? tqs with _ | mx
  · rw [maxKey?_eq_none_iff] at hmx
    subst hmx
    simp [timeKeys_nil] at hmem
  · have hmmx : m ≤ mx := maxKey?_spec tqs mx hmx m hmem
    have htm : t0 < m := hgt m hmem
    refine seekQueue_finds_aux tqs m q hq hle _ t0 hgt ?_
    unfold seekFuel
    rw [hmx]
    show m ≤ t0 + ((mx - t0).toNat : Int)
    omega

/-- Anatomy of a completed `nextAt`: pops the head of `q`'s drain order,
detaches slot `t`, and maintains the cursor fields. -/
theorem EQ_nextAt_spec (eq : EventQueue) (t : Int) (q : PriorityQueue)
    (r : Option Event) (eq' : EventQueue) (hwq : PQWF q)
    (hq : 0 < q.length) (h : eq.nextAt t q = some (r, eq')) :
    ∃ ev q2, q.next = (some ev, q2) ∧ r = some ev ∧
      q.toList = ev :: q2.toList ∧ q2.length = q.length - 1 ∧ PQWF q2 ∧
      eq'.timeQueues = eraseTime eq.timeQueues t ∧
      eq'.length = eq.length - 1 ∧
      eq'.currentTime = t ∧
      eq'.priorityList = eq.priorityList ∧
      (if q2.length = 0 then
          eq'.currentQueue = none ∧
          (eq.length - 1 = 0 → eq'.nextTime = none) ∧
          (eq.length - 1 ≠ 0 → ∃ m,
            minKey? (eraseTime eq.timeQueues t) = some m ∧
            eq'.nextTime = some m)
        else eq'.currentQueue = some q2 ∧ eq'.nextTime = some t) := by
  obtain ⟨ev, q2, hnx, hdrain, hlen2, _, hwf2⟩ := PQ_next_some q hwq hq
  refine ⟨ev, q2, hnx, ?_⟩
  simp only [EventQueue.nextAt, hnx] at h
  by_cases hq2 : q2.length = 0
  · rw [if_pos hq2] at h
    by_cases hl0 : eq.length - 1 = 0
    · rw [if_pos hl0] at h
      rw [Option.some.injEq, Prod.mk.injEq] at h
      obtain ⟨rfl, rfl⟩ := h
      refine ⟨rfl, hdrain, hlen2, hwf2, rfl, rfl, rfl, rfl, ?_⟩
      rw [if_pos hq2]
      exact ⟨rfl, fun _ => rfl, fun hne => absurd hl0 hne⟩
    · rw [if_neg hl0] at h
      rcases hmk : minKey? (eraseTime eq.timeQueues t) with _ | m
      · rw [hmk] at h
        exact absurd h (by simp)
      · rw [hmk] at h
        rw [Option.some.injEq, Prod.mk.injEq] at h
        obtain ⟨rfl, rfl⟩ := h
        refine ⟨rfl, hdrain, hlen2, hwf2, rfl, rfl, rfl, rfl, ?_⟩
        rw [if_pos hq2]
        exact ⟨rfl, fun he => absurd he hl0, fun _ => ⟨m, rfl, rfl⟩⟩
  · rw [if_neg hq2] at h
    rw [Option.some.injEq, Prod.mk.injEq] at h
    obtain ⟨rfl, rfl⟩ := h
    refine ⟨rfl, hdrain, hlen2, hwf2, rfl, rfl, rfl, rfl, ?_⟩
    rw [if_neg hq2]
    exact ⟨rfl, rfl⟩

/-- A completed `next` on a non-empty well-formed queue returns an event,
decrements the counter by one, and preserves well-formedness. -/
theorem EQ_next_complete (eq : EventQueue) (r : Option Event)
    (eq' : EventQueue) (hw : EQWF eq) (hlen : eq.length ≠ 0)
    (hnext : eq.next = some (r, eq')) :
    (∃ ev, r = some ev) ∧ eq'.length = eq.length - 1 ∧ EQWF eq' := by
  unfold EventQueue.next at hnext
  rw [if_neg hlen] at hnext
  have main : ∀ (t : Int) (q : PriorityQueue), PQWF q → 0 < q.length →
      eq.nextAt t q = some (r, eq') →
      (∃ ev, r = some ev) ∧ eq'.length = eq.length - 1 ∧ EQWF eq' := by
    intro t q hwq hq h
    obtain ⟨ev, q2, _, hr, _, _, hwf2, htq, hlen', _, _, htail⟩ :=
      EQ_nextAt_spec eq t q r eq' hwq hq h
    refine ⟨⟨ev, hr⟩, hlen', ?_⟩
    constructor
    · intro t' pq hl
      rw [htq, lookupTime_eraseTime] at hl
      by_cases ht' : t' = t
      · rw [if_pos ht'] at hl
        exact absurd hl (by simp)
      · rw [if_neg ht'] at hl
        exact hw.stored t' pq hl
    · intro pq hl
      by_cases hq2 : q2.length = 0
      · rw [if_pos hq2] at htail
        rw [htail.1] at hl
        exact absurd hl (by simp)
      · rw [if_neg hq2] at htail
        rw [htail.1] at hl
        obtain rfl : q2 = pq := by simpa using hl
        exact ⟨hwf2, Nat.pos_of_ne_zero hq2⟩
  rcases hcq : eq.currentQueue with _ | q
  · rw [hcq] at hnext
    rcases hseek : seekQueue eq.timeQueues eq.currentTime
        (seekFuel eq.timeQueues eq.currentTime) with _ | tq
    · rw [hseek] at hnext
      exact absurd hnext (by simp)
    · rw [hseek] at hnext
      obtain ⟨hlk, _⟩ := seekQueue_lookup eq.timeQueues _ _ _ _ hseek
      obtain ⟨hwq, hq⟩ := hw.stored _ _ hlk
      exact main tq.1 tq.2 hwq hq hnext
  · rw [hcq] at hnext
    obtain ⟨hwq, hq⟩ := hw.current q hcq
    exact main eq.currentTime q hwq hq hnext

theorem runPQ_counter (test : String → String → Bool) (ops : List PQOp) :
    ∀ (pq : PriorityQueue) (n m : Nat) (out : PriorityQueue × Nat × Nat),
      PQWF pq → pq.length + m = n →
      runPQ test ops (pq, n, m) = some out →
      PQWF out.1 ∧ out.1.length + out.2.2 = out.2.1 := by
  induction ops with
  | nil =>
    intro pq n m out hw hc h
    obtain rfl : (pq, n, m) = out := by simpa [runPQ] using h
    exact ⟨hw, hc⟩
  | cons op ops ih =>
    intro pq n m out hw hc h
    cases op with
    | add e =>
      simp only [runPQ] at h
      rcases hadd : pq.add test e with _ | pq'
      · rw [hadd] at h
        exact absurd h (by simp)
      · rw [hadd] at h
        obtain ⟨hw', hlen', _⟩ := PQWF_add test pq e pq' hw hadd
        exact ih pq' (n + 1) m out hw' (by omega) h
    | next =>
      simp only [runPQ] at h
      by_cases hlen : pq.length = 0
      · rw [PQ_next_none pq hlen] at h
        exact ih pq n m out hw hc h
      · obtain ⟨e, pq', hnext, _, hlen', _, hw'⟩ :=
          PQ_next_some pq hw (Nat.pos_of_ne_zero hlen)
        rw [hnext] at h
        exact ih pq' n (m + 1) out hw' (by omega) h

theorem runEQ_counter (test : String → String → Bool) (ops : List EQOp) :
    ∀ (eq : EventQueue) (n m : Nat) (out : EventQueue × Nat × Nat),
      EQWF eq → eq.length + m = n →
      runEQ test ops (eq, n, m) = some out →
      EQWF out.1 ∧ out.1.length + out.2.2 = out.2.1 := by
  induction ops with
  | nil =>
    intro eq n m out hw hc h
    obtain rfl : (eq, n, m) = out := by simpa [runEQ] using h
    exact ⟨hw, hc⟩
  | cons op ops ih =>
    intro eq n m out hw hc h
    cases op with
    | add e t =>
      simp only [runEQ] at h
      rcases hadd : eq.add test e t with _ | eq'
      · rw [hadd] at h
        exact absurd h (by simp)
      · rw [hadd] at h
        obtain ⟨hw', hlen', _⟩ := EQ_add_complete test eq e t eq' hw hadd
        exact ih eq' (n + 1) m out hw' (by omega) h
    | next =>
      simp only [runEQ] at h
      by_cases hlen : eq.length = 0
      · rw [EQ_next_zero eq hlen] at h
        exact ih eq n m out hw hc h
      · rcases hnext : eq.next with _ | r
        · rw [hnext] at h
          exact absurd h (by simp)
        · obtain ⟨r1, eq'⟩ := r
          obtain ⟨⟨ev, hev⟩, hlen', hw'⟩ :=
            EQ_next_complete eq r1 eq' hw hlen hnext
          subst hev
          rw [hnext] at h
          exact ih eq' n (m + 1) out hw' (by omega) h

/-- C8: for both queue components, over every interleaving of operations:
after `N` completed adds and `M` `next()` calls that returned an event, the
length counter equals `N − M` (with `M ≤ N`); `isEmpty` is true exactly when
`length = 0`; and `next()` on an empty queue returns "none" without throwing
and leaves the whole state — in particular `length` and, for the event
queue, `currentTime` — unchanged. -/
theorem C8_length_counters (test : String → String → Bool)
    (pl1 pl2 : List String) (ops1 : List PQOp) (ops2 : List EQOp)
    (out1 : PriorityQueue × Nat × Nat) (out2 : EventQueue × Nat × Nat)
    (h1 : runPQ test ops1 (PriorityQueue.init pl1, 0, 0) = some out1)
    (h2 : runEQ test ops2 (EventQueue.init pl2, 0, 0) = some out2) :
    (out1.2.2 ≤ out1.2.1 ∧ out1.1.length = out1.2.1 - out1.2.2) ∧
    (out2.2.2 ≤ out2.2.1 ∧ out2.1.length = out2.2.1 - out2.2.2) ∧
    (∀ pq : PriorityQueue, pq.length = 0 → pq.next = (none, pq)) ∧
    (∀ eq : EventQueue, eq.length = 0 → eq.next = some (none, eq)) ∧
    (∀ pq : PriorityQueue, pq.isEmpty = true ↔ pq.length = 0) ∧
    (∀ eq : EventQueue, eq.isEmpty = true ↔ eq.length = 0) := by
  obtain ⟨_, hc1⟩ := runPQ_counter test ops1 (PriorityQueue.init pl1) 0 0 out1
    (PQWF_init pl1) (by simp [PriorityQueue.init, PriorityQueue.setPriorities]) h1
  obtain ⟨_, hc2⟩ := runEQ_counter test ops2 (EventQueue.init pl2) 0 0 out2
    (EQWF_init pl2) (by simp [EventQueue.init]) h2
  refine ⟨⟨by omega, by omega⟩, ⟨by omega, by omega⟩, PQ_next_none,
    EQ_next_zero, ?_, ?_⟩
  · intro pq
    simp [PriorityQueue.isEmpty]
  · intro eq
    simp [EventQueue.isEmpty]

/-- Witness for C8: a concrete interleaving (two adds, three `next` calls —
the last on an already-empty queue) on each component, plus the empty-queue
`next` at a concrete queue. -/
theorem C8_length_counters_witness :
    (((runPQ (fun p n => p == "" || p == n)
        [PQOp.add ⟨"a", none, 0⟩, PQOp.add ⟨"b", none, 1⟩,
          PQOp.next, PQOp.next, PQOp.next]
        (PriorityQueue.init ["a"], 0, 0)).getD
          (⟨[], fun _ => [], 0⟩, 0, 0)).2.2 ≤
      ((runPQ (fun p n => p == "" || p == n)
        [PQOp.add ⟨"a", none, 0⟩, PQOp.add ⟨"b", none, 1⟩,
          PQOp.next, PQOp.next, PQOp.next]
        (PriorityQueue.init ["a"], 0, 0)).getD
          (⟨[], fun _ => [], 0⟩, 0, 0)).2.1) ∧
    (((runEQ (fun p n => p == "" || p == n)
        [EQOp.add ⟨"a", none, 0⟩ none, EQOp.next, EQOp.next]
        (EventQueue.init ["a"], 0, 0)).getD
          (EventQueue.init [], 0, 0)).1.length =
      ((runEQ (fun p n => p == "" || p == n)
        [EQOp.add ⟨"a", none, 0⟩ none, EQOp.next, EQOp.next]
        (EventQueue.init ["a"], 0, 0)).getD
          (EventQueue.init [], 0, 0)).2.1 -
      ((runEQ (fun p n => p == "" || p == n)
        [EQOp.add ⟨"a", none, 0⟩ none, EQOp.next, EQOp.next]
        (EventQueue.init ["a"], 0, 0)).getD
          (EventQueue.init [], 0, 0)).2.2) ∧
    (EventQueue.init ["a"]).next = some (none, EventQueue.init ["a"]) := by
  have h := C8_length_counters (fun p n => p == "" || p == n) ["a"] ["a"]
    [PQOp.add ⟨"a", none, 0⟩, PQOp.add ⟨"b", none, 1⟩,
      PQOp.next, PQOp.next, PQOp.next]
    [EQOp.add ⟨"a", none, 0⟩ none, EQOp.next, EQOp.next]
    ((runPQ (fun p n => p == "" || p == n)
      [PQOp.add ⟨"a", none, 0⟩, PQOp.add ⟨"b", none, 1⟩,
        PQOp.next, PQOp.next, PQOp.next]
      (PriorityQueue.init ["a"], 0, 0)).getD
        (⟨[], fun _ => [], 0⟩, 0, 0))
    ((runEQ (fun p n => p == "" || p == n)
      [EQOp.add ⟨"a", none, 0⟩ none, EQOp.next, EQOp.next]
      (EventQueue.init ["a"], 0, 0)).getD
        (EventQueue.init [], 0, 0))
    rfl rfl
  exact ⟨h.1.1, h.2.1.2, h.2.2.2.1 (EventQueue.init ["a"]) rfl⟩

/-! ### Strict reachability and its invariant -/
theorem eraseTime_not_mem (tqs : List (Int × PriorityQueue)) (t : Int)
    (h : t ∉ timeKeys tqs) : eraseTime tqs t = tqs := by
  unfold eraseTime
  refine List.filter_eq_self.mpr ?_
  intro p hp
  have hne : p.1 ≠ t := fun he =>
    h (by rw [← he]; exact List.mem_map_of_mem _ hp)
  simp [hne]

theorem seekQueue_minimal (tqs : List (Int × PriorityQueue)) (fuel : Nat) :
    ∀ (t0 t' : Int) (q : PriorityQueue),
      seekQueue tqs t0 fuel = some (t', q) →
      ∀ k ∈ timeKeys tqs, t0 < k → t' ≤ k := by
  induction fuel with
  | zero => intro t0 t' q h; simp [seekQueue] at h
  | succ fuel ih =>
    intro t0 t' q h k hk hgt
    rw [seekQueue] at h
    rcases hl : lookupTime tqs (t0 + 1) with _ | q0
    · rw [hl] at h
      by_cases hke : k = t0 + 1
      · rw [lookupTime_eq_none_iff] at hl
        exact absurd (hke ▸ hk) hl
      · exact ih (t0 + 1) t' q h k hk (by omega)
    · rw [hl] at h
      have h2 : some (t0 + 1, q0) = some (t', q) := h
      rw [Option.some.injEq, Prod.mk.injEq] at h2
      obtain ⟨rfl, rfl⟩ := h2
      omega

/-- Anatomy of a completed `add`: resolved time, the touched per-time queue,
and the produced state. -/
theorem EQ_add_anatomy (test : String → String → Bool) (eq : EventQueue)
    (e : Event) (time : Option Int) (eq' : EventQueue)
    (h : eq.add test e time = some eq') :
    ∃ q', ((lookupTime eq.timeQueues
          (resolveTime eq.currentTime e.time time)).getD
        (PriorityQueue.init eq.priorityList)).add test
          { e with time := some (resolveTime eq.currentTime e.time time) } =
        some q' ∧
      eq' = { eq with
        timeQueues := storeTime eq.timeQueues
          (resolveTime eq.currentTime e.time time) q'
        length := eq.length + 1
        nextTime := if jsTruthy eq.nextTime then eq.nextTime
          else some (resolveTime eq.currentTime e.time time) } := by
  simp only [EventQueue.add] at h
  split at h
  · exact absurd h (by simp)
  · next q' hq =>
    exact ⟨q', hq, by simpa using h.symm⟩

/-- A strict `add` that returns `ok` delegates to the base `add` and
guarantees the resolved time lies strictly above `currentTime`. -/
theorem strict_add_ok (test : String → String → Bool) (eq : EventQueue)
    (e : Event) (t : Option Int) (x : Option EventQueue)
    (h : StrictEventQueue.add test eq e t = Except.ok x) :
    x = eq.add test e t ∧
      eq.currentTime < resolveTime eq.currentTime e.time t := by
  unfold StrictEventQueue.add at h
  by_cases hn : e.name = ""
  · rw [if_pos hn] at h
    exact absurd h (by simp)
  · rw [if_neg hn] at h
    by_cases hb : (jsTruthy t || jsTruthy e.time) = true
    · rw [if_pos hb] at h
      by_cases ht : jsTruthy t = true
      · by_cases hle : t.getD 0 ≤ eq.currentTime
        · simp [ht, hle] at h
        · simp only [ht, if_true, if_neg hle] at h
          refine ⟨by simpa using h.symm, ?_⟩
          simp only [resolveTime, ht, if_true]
          omega
      · have htf : jsTruthy t = false := by
          rcases h1 : jsTruthy t with _ | _
          · rfl
          · exact absurd h1 ht
        have he : jsTruthy e.time = true := by
          rcases Bool.or_eq_true_iff.mp hb with h1 | h1
          · exact absurd h1 ht
          · exact h1
        by_cases hle : e.time.getD 0 ≤ eq.currentTime
        · simp [htf, hle] at h
        · simp only [htf, Bool.false_eq_true, if_false, if_neg hle] at h
          refine ⟨by simpa using h.symm, ?_⟩
          simp only [resolveTime, htf, Bool.false_eq_true, if_false, he,
            if_true]
          omega
    · rw [if_neg hb] at h
      refine ⟨by simpa using h.symm, ?_⟩
      have ht : jsTruthy t = false := by
        rcases h1 : jsTruthy t with _ | _
        · rfl
        · exact absurd (by rw [h1]; simp) hb
      have he : jsTruthy e.time = false := by
        rcases h1 : jsTruthy e.time with _ | _
        · rfl
        · exact absurd (by rw [ht, h1]; simp) hb
      simp only [resolveTime, ht, he, Bool.false_eq_true, if_false]
      omega

theorem SInv_init (pl : List String) : SInv (EventQueue.init pl) := by
  refine ⟨EQWF_init pl, ?_, ?_, ?_, ?_, ?_, ?_, ?_⟩ <;>
    simp [EventQueue.init, timeKeys_nil, totalLen_nil]

theorem SInv_add_core (test : String → String → Bool) (eq : EventQueue)
    (e : Event) (t : Option Int) (eq' : EventQueue) (hinv : SInv eq)
    (hres : eq.currentTime < resolveTime eq.currentTime e.time t)
    (hadd : eq.add test e t = some eq') :
    SInv eq' ∧ eq'.length = eq.length + 1 ∧
      eq'.nextTime = (if jsTruthy eq.nextTime then eq.nextTime
        else some (resolveTime eq.currentTime e.time t)) := by
  obtain ⟨q', hq', heq'⟩ := EQ_add_anatomy test eq e t eq' hadd
  obtain ⟨hw', _, _, _, _⟩ := EQ_add_complete test eq e t eq' hinv.wf hadd
  set r := resolveTime eq.currentTime e.time t with hr
  obtain ⟨k, _, _, hq'eq⟩ := PQ_add_characterize test _ _ _ hq'
  have hq'len : q'.length = ((lookupTime eq.timeQueues r).getD
      (PriorityQueue.init eq.priorityList)).length + 1 := by
    rw [hq'eq]
  subst heq'
  refine ⟨⟨hw', ?_, ?_, hinv.ctNonneg, ?_, ?_, ?_, ?_⟩, rfl, rfl⟩
  · exact timeKeys_nodup_storeTime _ _ _ hinv.keysNodup
  · intro t' ht'
    show eq.currentTime < t'
    by_cases hmem : r ∈ timeKeys eq.timeQueues
    · rw [timeKeys_storeTime_mem _ _ _ hmem] at ht'
      exact hinv.keysGT t' ht'
    · rw [timeKeys_storeTime_not_mem _ _ _ hmem] at ht'
      rcases List.mem_append.mp ht' with hmem2 | hmem2
      · exact hinv.keysGT t' hmem2
      · obtain rfl : t' = r := by simpa using hmem2
        exact hres
  · intro hcq
    exact hinv.ctPos hcq
  · show eq.length + 1 = (match eq.currentQueue with
      | some q => q.length
      | none => 0) + totalLen (storeTime eq.timeQueues r q')
    rcases hlk : lookupTime eq.timeQueues r with _ | q0
    · have h1 := totalLen_storeTime_none eq.timeQueues r q' hlk
      have hq1 : q'.length = 1 := by
        rw [hq'len, hlk]
        rfl
      have h2 := hinv.lenEq
      rw [h1, hq1]
      omega
    · have h1 := totalLen_storeTime_some eq.timeQueues r q0 q' hlk
      have hq1 : q'.length = q0.length + 1 := by
        rw [hq'len, hlk]
        rfl
      have h2 := hinv.lenEq
      omega
  · show (if jsTruthy eq.nextTime then eq.nextTime else some r) = none ↔
      eq.length + 1 = 0
    by_cases hnt : jsTruthy eq.nextTime = true
    · rw [if_pos hnt]
      rcases h0 : eq.nextTime with _ | v
      · rw [h0] at hnt
        simp [jsTruthy] at hnt
      · simp
    · rw [if_neg hnt]
      simp
  · intro v hv
    show 0 < v
    by_cases hnt : jsTruthy eq.nextTime = true
    · rw [if_pos hnt] at hv
      exact hinv.ntPos v hv
    · rw [if_neg hnt] at hv
      obtain rfl : r = v := by simpa using hv
      have := hinv.ctNonneg
      omega

theorem SInv_add (test : String → String → Bool) (eq : EventQueue)
    (e : Event) (t : Option Int) (eq' : EventQueue) (hinv : SInv eq)
    (hok : StrictEventQueue.add test eq e t = Except.ok (some eq')) :
    SInv eq' ∧ eq'.length = eq.length + 1 ∧
      eq'.nextTime = (if jsTruthy eq.nextTime then eq.nextTime
        else some (resolveTime eq.currentTime e.time t)) := by
  obtain ⟨hx, hres⟩ := strict_add_ok test eq e t (some eq') hok
  exact SInv_add_core test eq e t eq' hinv hres hx.symm

theorem SInv_nextAt_core (eq : EventQueue) (t : Int) (q : PriorityQueue)
    (hinv : SInv eq) (hwq : PQWF q) (hqpos : 0 < q.length) (htpos : 0 < t)
    (hlenA : eq.length = q.length + totalLen (eraseTime eq.timeQueues t))
    (hkeysA : ∀ k ∈ timeKeys (eraseTime eq.timeQueues t), t < k) :
    ∃ ev eq', eq.nextAt t q = some (some ev, eq') ∧ SInv eq' ∧
      eq'.length = eq.length - 1 := by
  obtain ⟨ev, q2, hnx, hdrain, hlen2, hpl, hwf2⟩ := PQ_next_some q hwq hqpos
  have hstoredA : ∀ t' pq,
      lookupTime (eraseTime eq.timeQueues t) t' = some pq →
      PQWF pq ∧ 0 < pq.length := by
    intro t' pq hl
    rw [lookupTime_eraseTime] at hl
    by_cases ht' : t' = t
    · rw [if_pos ht'] at hl
      exact absurd hl (by simp)
    · rw [if_neg ht'] at hl
      exact hinv.wf.stored t' pq hl
  have hndA : (timeKeys (eraseTime eq.timeQueues t)).Nodup :=
    timeKeys_nodup_eraseTime _ _ hinv.keysNodup
  simp only [EventQueue.nextAt, hnx]
  by_cases hq2 : q2.length = 0
  · rw [if_pos hq2]
    by_cases hl0 : eq.length - 1 = 0
    · rw [if_pos hl0]
      refine ⟨ev, _, rfl, ?_, rfl⟩
      have htot : totalLen (eraseTime eq.timeQueues t) = 0 := by omega
      refine ⟨⟨hstoredA, ?_⟩, hndA, hkeysA, le_of_lt htpos, ?_, ?_, ?_, ?_⟩
      · intro pq hl
        exact absurd hl (by simp)
      · intro hcq
        simp at hcq
      · show eq.length - 1 = 0 + totalLen (eraseTime eq.timeQueues t)
        omega
      · show (none : Option Int) = none ↔ eq.length - 1 = 0
        simp [hl0]
      · intro v hv
        exact absurd hv (by simp)
    · rw [if_neg hl0]
      have hq1 : q.length = 1 := by omega
      have htot : totalLen (eraseTime eq.timeQueues t) ≠ 0 := by omega
      have hne : eraseTime eq.timeQueues t ≠ [] := by
        intro h0
        rw [h0] at htot
        exact htot totalLen_nil
      rcases hmk : minKey? (eraseTime eq.timeQueues t) with _ | m
      · exact absurd ((minKey?_eq_none_iff _).mp hmk) hne
      · obtain ⟨hmmem, _⟩ := minKey?_spec _ m hmk
        refine ⟨ev, _, rfl, ?_, rfl⟩
        refine ⟨⟨hstoredA, ?_⟩, hndA, hkeysA, le_of_lt htpos, ?_, ?_, ?_, ?_⟩
        · intro pq hl
          exact absurd hl (by simp)
        · intro hcq
          simp at hcq
        · show eq.length - 1 = 0 + totalLen (eraseTime eq.timeQueues t)
          omega
        · show some m = none ↔ eq.length - 1 = 0
          simp [hl0]
        · intro v hv
          obtain rfl : m = v := by simpa using hv
          have := hkeysA m hmmem
          omega
  · rw [if_neg hq2]
    refine ⟨ev, _, rfl, ?_, rfl⟩
    refine ⟨⟨hstoredA, ?_⟩, hndA, hkeysA, le_of_lt htpos, ?_, ?_, ?_, ?_⟩
    · intro pq hl
      obtain rfl : q2 = pq := by simpa using hl
      exact ⟨hwf2, Nat.pos_of_ne_zero hq2⟩
    · intro _
      exact htpos
    · show eq.length - 1 = q2.length + totalLen (eraseTime eq.timeQueues t)
      omega
    · show some t = none ↔ eq.length - 1 = 0
      have : eq.length - 1 ≠ 0 := by omega
      simp [this]
    · intro v hv
      obtain rfl : t = v := by simpa using hv
      exact htpos

/-- On a non-empty strict-reachable queue, `next()` completes, yields an
event, decrements the counter, and preserves the invariant: the tick-by-tick
advance reaches an occupied slot after finitely many iterations. -/
theorem SInv_next (eq : EventQueue) (hinv : SInv eq) (hlen : eq.length ≠ 0) :
    ∃ ev eq', eq.next = some (some ev, eq') ∧ SInv eq' ∧
      eq'.length = eq.length - 1 := by
  unfold EventQueue.next
  rw [if_neg hlen]
  rcases hcq : eq.currentQueue with _ | q
  · have hcqlen : (match eq.currentQueue with
        | some q => q.length
        | none => 0) = 0 := by rw [hcq]
    have htqne : eq.timeQueues ≠ [] := by
      intro h0
      have := hinv.lenEq
      rw [hcqlen, h0, totalLen_nil] at this
      exact hlen this
    rcases hmk : minKey? eq.timeQueues with _ | m
    · exact absurd ((minKey?_eq_none_iff _).mp hmk) htqne
    · obtain ⟨q, hlk, hseek⟩ :=
        seekQueue_finds eq.timeQueues eq.currentTime m hmk hinv.keysGT
      rw [hseek]
      obtain ⟨hmmem, hmle⟩ := minKey?_spec _ m hmk
      have hmgt : eq.currentTime < m := hinv.keysGT m hmmem
      obtain ⟨hwq, hqpos⟩ := hinv.wf.stored m q hlk
      have herase := totalLen_eraseTime eq.timeQueues m q hinv.keysNodup hlk
      refine SInv_nextAt_core eq m q hinv hwq hqpos ?_ ?_ ?_
      · have := hinv.ctNonneg
        omega
      · have := hinv.lenEq
        rw [hcqlen] at this
        omega
      · intro k hk
        obtain ⟨hkmem, hkne⟩ := timeKeys_eraseTime_not_mem _ _ _ hk
        have := hmle k hkmem
        omega
  · have hctpos : 0 < eq.currentTime := hinv.ctPos (by rw [hcq]; rfl)
    have hnomem : eq.currentTime ∉ timeKeys eq.timeQueues := by
      intro hmem
      exact absurd (hinv.keysGT _ hmem) (by omega)
    have herase : eraseTime eq.timeQueues eq.currentTime = eq.timeQueues :=
      eraseTime_not_mem _ _ hnomem
    obtain ⟨hwq, hqpos⟩ := hinv.wf.current q hcq
    refine SInv_nextAt_core eq eq.currentTime q hinv hwq hqpos hctpos ?_ ?_
    · rw [herase]
      have := hinv.lenEq
      rw [hcq] at this
      exact this
    · rw [herase]
      exact hinv.keysGT

theorem SReach_inv (test : String → String → Bool) (eq : EventQueue)
    (h : SReach test eq) : SInv eq := by
  induction h with
  | init pl => exact SInv_init pl
  | addStep hr hok ih => exact (SInv_add _ _ _ _ _ ih hok).1
  | @nextStep eq0 eq' r hr hnext ih =>
    by_cases hlen : eq0.length = 0
    · rw [EQ_next_zero eq0 hlen] at hnext
      rw [Option.some.injEq, Prod.mk.injEq] at hnext
      obtain ⟨-, rfl⟩ := hnext
      exact ih
    · obtain ⟨ev, eq2, hn2, hinv2, -⟩ := SInv_next eq0 ih hlen
      rw [hn2] at hnext
      rw [Option.some.injEq, Prod.mk.injEq] at hnext
      obtain ⟨-, rfl⟩ := hnext
      exact hinv2

/-! ### C10: termination of the tick-by-tick advance -/
/-- C10: on any state reached through strict adds (each of which enforces an
integral resolved time strictly above `currentTime`) and completed `next`
calls, a `next()` on a non-empty queue terminates: the tick-by-tick advance
loop reaches an occupied slot after finitely many iterations and an event is
returned. -/
theorem C10_next_terminates (test : String → String → Bool)
    (eq : EventQueue) (hr : SReach test eq) (hlen : 0 < eq.length) :
    ∃ ev eq', eq.next = some (some ev, eq') := by
  obtain ⟨ev, eq', hn, -, -⟩ :=
    SInv_next eq (SReach_inv test eq hr) (by omega)
  exact ⟨ev, eq', hn⟩

/-- Witness for C10: one strict add at time 5, then `next()` returns an
event. -/
theorem C10_next_terminates_witness :
    0 < (((StrictEventQueue.add (fun _ _ => true) (EventQueue.init ["a"])
        ⟨"a", none, 0⟩ (some 5)).toOption.getD none).getD
          (EventQueue.init [])).length ∧
    ∃ ev eq', (((StrictEventQueue.add (fun _ _ => true)
        (EventQueue.init ["a"]) ⟨"a", none, 0⟩ (some 5)).toOption.getD
          none).getD (EventQueue.init [])).next = some (some ev, eq') := by
  refine ⟨by decide, ?_⟩
  have h1 : StrictEventQueue.add (fun _ _ => true) (EventQueue.init ["a"])
      ⟨"a", none, 0⟩ (some 5) =
      Except.ok (some (((StrictEventQueue.add (fun _ _ => true)
        (EventQueue.init ["a"]) ⟨"a", none, 0⟩ (some 5)).toOption.getD
          none).getD (EventQueue.init []))) := rfl
  exact C10_next_terminates (fun _ _ => true) _
    (SReach.addStep (SReach.init ["a"]) h1) (by decide)

/-! ### C2: the `nextTime` reader -/
/-- C2 counterexample: after strict adds at times 5 and then 3 (both valid:
each is above `currentTime = 0`), `nextTime` still reads 5 although the
smallest occupied time is 3 — `add` only initialises a falsy `nextTime` and
never lowers it. -/
theorem C2_counterexample :
    (((((EventQueue.init ["a"]).add (fun _ _ => true) ⟨"a", none, 0⟩
          (some 5)).getD (EventQueue.init [])).add (fun _ _ => true)
        ⟨"b", none, 1⟩ (some 3)).getD (EventQueue.init [])).nextTime =
      some 5 ∧
    minKey? (((((EventQueue.init ["a"]).add (fun _ _ => true) ⟨"a", none, 0⟩
          (some 5)).getD (EventQueue.init [])).add (fun _ _ => true)
        ⟨"b", none, 1⟩ (some 3)).getD (EventQueue.init [])).timeQueues =
      some 3 := by
  constructor <;> rfl

/-- C2 amended: on every strict-reachable state, `nextTime` is unset exactly
when `length = 0`, and a set `nextTime` is never the time value 0 (so unset
and 0 stay distinguishable); but an `add` only initialises `nextTime` when
it was previously unset and otherwise leaves it unchanged — it is not
recomputed as the minimum of the occupied times, so it may exceed the
smallest one (it becomes the minimum again when `next()` empties a
bucket). -/
theorem C2_amended_nextTime (test : String → String → Bool)
    (eq : EventQueue) (hr : SReach test eq) :
    (eq.nextTime = none ↔ eq.length = 0) ∧
    (∀ v : Int, eq.nextTime = some v → v ≠ 0) ∧
    (∀ (e : Event) (t : Option Int) (eq' : EventQueue),
      StrictEventQueue.add test eq e t = Except.ok (some eq') →
      eq'.nextTime = if eq.nextTime = none
        then some (resolveTime eq.currentTime e.time t)
        else eq.nextTime) := by
  have hinv := SReach_inv test eq hr
  refine ⟨hinv.ntIff, ?_, ?_⟩
  · intro v hv
    have := hinv.ntPos v hv
    omega
  · intro e t eq' hok
    obtain ⟨-, -, hnt⟩ := SInv_add test eq e t eq' hinv hok
    rw [hnt]
    rcases hv : eq.nextTime with _ | v
    · simp [jsTruthy]
    · have hvpos := hinv.ntPos v hv
      have hvne : v ≠ 0 := by omega
      simp [jsTruthy, hvne]

/-- Witness for the amended C2: the empty queue has `nextTime` unset, and a
first strict add at time 5 initialises it to 5. -/
theorem C2_amended_nextTime_witness :
    ((EventQueue.init ["a"]).nextTime = none ↔
      (EventQueue.init ["a"]).length = 0) ∧
    ((((StrictEventQueue.add (fun _ _ => true) (EventQueue.init ["a"])
        ⟨"a", none, 0⟩ (some 5)).toOption.getD none).getD
          (EventQueue.init [])).nextTime =
      if (EventQueue.init ["a"]).nextTime = none then some 5
      else (EventQueue.init ["a"]).nextTime) := by
  have h := C2_amended_nextTime (fun _ _ => true) (EventQueue.init ["a"])
    (SReach.init ["a"])
  exact ⟨h.1, h.2.2 ⟨"a", none, 0⟩ (some 5) _ rfl⟩

theorem writeBack_cons (ct : Int) (p : Event × Option Int)
    (rest : List (Event × Option Int)) :
    writeBack ct (p :: rest) =
      { p.1 with time := some (resolveTime ct p.1.time p.2) } ::
        writeBack ct rest := by
  obtain ⟨e, t⟩ := p
  rfl

theorem writeBack_mem (ct : Int) (adds : List (Event × Option Int)) :
    ∀ e ∈ writeBack ct adds, ∃ p ∈ adds,
      e = { p.1 with time := some (resolveTime ct p.1.time p.2) } := by
  induction adds with
  | nil => intro e he; simp [writeBack] at he
  | cons p rest ih =>
    intro e he
    rw [writeBack_cons] at he
    rcases List.mem_cons.mp he with rfl | hmem
    · exact ⟨p, by simp, rfl⟩
    · obtain ⟨p2, hp2, hep⟩ := ih e hmem
      exact ⟨p2, by simp [hp2], hep⟩

theorem eraseTime_length (tqs : List (Int × PriorityQueue)) (m : Int)
    (hnd : (timeKeys tqs).Nodup) (hm : m ∈ timeKeys tqs) :
    (eraseTime tqs m).length = tqs.length - 1 := by
  induction tqs with
  | nil => simp [timeKeys_nil] at hm
  | cons hd rest ih =>
    rw [timeKeys_cons, List.nodup_cons] at hnd
    rw [timeKeys_cons] at hm
    by_cases he : hd.1 = m
    · rw [eraseTime_cons_eq hd rest m he]
      have hnomem : m ∉ timeKeys rest := he ▸ hnd.1
      rw [eraseTime_not_mem rest m hnomem]
      simp
    · rw [eraseTime_cons_ne hd rest m he]
      have hm2 : m ∈ timeKeys rest := by
        rcases List.mem_cons.mp hm with he2 | h2
        · exact absurd he2.symm he
        · exact h2
      have hpos : 0 < (timeKeys rest).length :=
        List.length_pos.mpr (List.ne_nil_of_mem hm2)
      have hklen : (timeKeys rest).length = rest.length := by
        simp [timeKeys]
      have := ih hnd.2 hm2
      simp only [List.length_cons]
      omega

theorem SInv_len_zero (eq : EventQueue) (hinv : SInv eq)
    (h : eq.length = 0) : eq.currentQueue = none ∧ eq.timeQueues = [] := by
  have hlen := hinv.lenEq
  rcases hcq : eq.currentQueue with _ | q
  · rw [hcq] at hlen
    have hlen2 : eq.length = 0 + totalLen eq.timeQueues := hlen
    refine ⟨rfl, ?_⟩
    cases htq : eq.timeQueues with
    | nil => rfl
    | cons hd rest =>
      obtain ⟨hwf, hpos⟩ := hinv.wf.stored hd.1 hd.2 (by
        rw [htq, lookupTime_cons, if_pos rfl])
      rw [htq, totalLen_cons] at hlen2
      exfalso
      omega
  · rw [hcq] at hlen
    have hlen2 : eq.length = q.length + totalLen eq.timeQueues := hlen
    obtain ⟨hwf, hpos⟩ := hinv.wf.current q hcq
    exfalso
    omega

theorem drainTimes_zero (tqs : List (Int × PriorityQueue)) :
    drainTimes tqs 0 = [] := rfl

theorem drainTimes_succ (tqs : List (Int × PriorityQueue)) (fuel : Nat) :
    drainTimes tqs (fuel + 1) =
      match minKey? tqs with
      | none => []
      | some m =>
        ((lookupTime tqs m).getD (PriorityQueue.init [])).toList ++
          drainTimes (eraseTime tqs m) fuel := rfl

theorem drainTimes_nil (fuel : Nat) : drainTimes [] fuel = [] := by
  cases fuel with
  | zero => rfl
  | succ n => rfl

/-- One completed `next()` on a non-empty invariant state peels exactly the
head of the remaining-events specification. -/
theorem SInv_next_peel (eq : EventQueue) (hinv : SInv eq)
    (hlen : eq.length ≠ 0) :
    ∃ ev eq2, eq.next = some (some ev, eq2) ∧ SInv eq2 ∧
      eq2.length = eq.length - 1 ∧ remSpec eq = ev :: remSpec eq2 := by
  obtain ⟨ev, eq2, hnext, hinv2, hlen2⟩ := SInv_next eq hinv hlen
  refine ⟨ev, eq2, hnext, hinv2, hlen2, ?_⟩
  have hnext2 := hnext
  unfold EventQueue.next at hnext2
  rw [if_neg hlen] at hnext2
  rcases hcq : eq.currentQueue with _ | q
  · rw [hcq] at hnext2
    have hcqlen : (match eq.currentQueue with
        | some q => q.length
        | none => 0) = 0 := by rw [hcq]
    have htqne : eq.timeQueues ≠ [] := by
      intro h0
      have hx := hinv.lenEq
      rw [hcqlen, h0, totalLen_nil] at hx
      exact hlen hx
    rcases hmk : minKey? eq.timeQueues with _ | m
    · exact absurd ((minKey?_eq_none_iff _).mp hmk) htqne
    · obtain ⟨q, hlk, hseek⟩ :=
        seekQueue_finds eq.timeQueues eq.currentTime m hmk hinv.keysGT
      rw [hseek] at hnext2
      obtain ⟨hwq, hqpos⟩ := hinv.wf.stored m q hlk
      obtain ⟨ev2, q2, hnx, hr, hdrain, hlen3, hwf2, htq, hlen4, hct, hpl,
        htail⟩ := EQ_nextAt_spec eq m q (some ev) eq2 hwq hqpos hnext2
      obtain rfl : ev = ev2 := by simpa using hr
      obtain ⟨hmmem, hmle⟩ := minKey?_spec _ m hmk
      have htqpos : 0 < eq.timeQueues.length :=
        List.length_pos.mpr htqne
      have hel : (eraseTime eq.timeQueues m).length =
          eq.timeQueues.length - 1 :=
        eraseTime_length eq.timeQueues m hinv.keysNodup hmmem
      have hsplit : drainTimes eq.timeQueues eq.timeQueues.length =
          q.toList ++ drainTimes (eraseTime eq.timeQueues m)
            (eq.timeQueues.length - 1) := by
        obtain ⟨n, hn⟩ : ∃ n, eq.timeQueues.length = n + 1 :=
          ⟨eq.timeQueues.length - 1, by omega⟩
        rw [hn, drainTimes_succ]
        simp only [hmk]
        rw [hlk]
        simp
      have hrem1 : remSpec eq =
          q.toList ++ drainTimes (eraseTime eq.timeQueues m)
            (eq.timeQueues.length - 1) := by
        rw [remSpec, hcq, hsplit]
        simp
      by_cases hq2 : q2.length = 0
      · rw [if_pos hq2] at htail
        have hq2nil : q2.toList = [] := by
          refine List.length_eq_zero.mp ?_
          rw [← hwf2.lenEq]
          exact hq2
        have hrem2 : remSpec eq2 =
            drainTimes (eraseTime eq.timeQueues m)
              (eq.timeQueues.length - 1) := by
          rw [remSpec, htail.1, htq, hel]
          simp
        rw [hrem1, hrem2, hdrain, hq2nil]
        rfl
      · rw [if_neg hq2] at htail
        have hrem2 : remSpec eq2 =
            q2.toList ++ drainTimes (eraseTime eq.timeQueues m)
              (eq.timeQueues.length - 1) := by
          rw [remSpec, htail.1, htq, hel]
        rw [hrem1, hrem2, hdrain]
        simp
  · rw [hcq] at hnext2
    obtain ⟨hwq, hqpos⟩ := hinv.wf.current q hcq
    obtain ⟨ev2, q2, hnx, hr, hdrain, hlen3, hwf2, htq, hlen4, hct, hpl,
      htail⟩ := EQ_nextAt_spec eq eq.currentTime q (some ev) eq2 hwq hqpos
        hnext2
    obtain rfl : ev = ev2 := by simpa using hr
    have hctpos : 0 < eq.currentTime := hinv.ctPos (by rw [hcq]; rfl)
    have hnomem : eq.currentTime ∉ timeKeys eq.timeQueues := by
      intro hmem
      exact absurd (hinv.keysGT _ hmem) (by omega)
    have herase : eraseTime eq.timeQueues eq.currentTime = eq.timeQueues :=
      eraseTime_not_mem _ _ hnomem
    rw [herase] at htq
    have hrem1 : remSpec eq =
        q.toList ++ drainTimes eq.timeQueues eq.timeQueues.length := by
      rw [remSpec, hcq]
    by_cases hq2 : q2.length = 0
    · rw [if_pos hq2] at htail
      have hq2nil : q2.toList = [] := by
        refine List.length_eq_zero.mp ?_
        rw [← hwf2.lenEq]
        exact hq2
      have hrem2 : remSpec eq2 =
          drainTimes eq.timeQueues eq.timeQueues.length := by
        rw [remSpec, htail.1, htq]
        simp
      rw [hrem1, hrem2, hdrain, hq2nil]
      rfl
    · rw [if_neg hq2] at htail
      have hrem2 : remSpec eq2 =
          q2.toList ++ drainTimes eq.timeQueues eq.timeQueues.length := by
        rw [remSpec, htail.1, htq]
      rw [hrem1, hrem2, hdrain]
      simp

/-- Draining an invariant state with fuel equal to its counter completes
and returns exactly the remaining-events specification. -/
theorem drain_master (eq : EventQueue) (hinv : SInv eq) :
    drainEQ eq eq.length = some (remSpec eq) := by
  generalize hn : eq.length = n
  induction n generalizing eq with
  | zero =>
    obtain ⟨hcq, htq⟩ := SInv_len_zero eq hinv hn
    show (if eq.length = 0 then some [] else none) = some (remSpec eq)
    rw [if_pos hn, remSpec, hcq, htq]
    simp [drainTimes_nil]
  | succ n ih =>
    obtain ⟨ev, eq2, hnext, hinv2, hlen2, hpeel⟩ :=
      SInv_next_peel eq hinv (by omega)
    show (match eq.next with
      | none => none
      | some (none, _) => some []
      | some (some e, eq3) => (drainEQ eq3 n).map (fun l => e :: l)) =
        some (remSpec eq)
    rw [hnext]
    show (drainEQ eq2 n).map (fun l => ev :: l) = some (remSpec eq)
    rw [ih eq2 hinv2 (by omega), hpeel]
    rfl

/-- Storing the updated slot queue preserves the add-phase characterization,
with the written-back event appended to the insertion log. -/
theorem timesChar_store (test : String → String → Bool) (pl2 : List String)
    (tqs : List (Int × PriorityQueue)) (wb0 : List Event) (r : Int)
    (e2 : Event) (q2 : PriorityQueue)
    (hchar : timesChar test pl2 tqs wb0)
    (he2 : e2.time = some r)
    (hq2pl : q2.priorityList = pl2)
    (hq2buckets : ∀ k2, q2.eventQueues k2 =
      ((wb0.filter (fun x => x.time == some r)) ++ [e2]).filter
        (fun x => findKey test pl2 x.name == some k2)) :
    timesChar test pl2 (storeTime tqs r q2) (wb0 ++ [e2]) := by
  obtain ⟨hchar1, hchar2⟩ := hchar
  constructor
  · intro t2
    rw [List.filter_append]
    by_cases ht2 : t2 = r
    · subst ht2
      have hmem : t2 ∈ timeKeys (storeTime tqs t2 q2) := by
        by_cases hm : t2 ∈ timeKeys tqs
        · rw [timeKeys_storeTime_mem tqs t2 q2 hm]
          exact hm
        · rw [timeKeys_storeTime_not_mem tqs t2 q2 hm]
          simp
      simp [hmem, List.filter_cons, he2]
    · have hkeys : t2 ∈ timeKeys (storeTime tqs r q2) ↔
          t2 ∈ timeKeys tqs := by
        by_cases hm : r ∈ timeKeys tqs
        · rw [timeKeys_storeTime_mem tqs r q2 hm]
        · rw [timeKeys_storeTime_not_mem tqs r q2 hm]
          simp [ht2]
      have ht2r : ¬ r = t2 := fun h => ht2 h.symm
      have hfe : [e2].filter (fun x => x.time == some t2) = [] := by
        simp [List.filter_cons, he2, ht2r]
      rw [hfe, List.append_nil, hkeys]
      exact hchar1 t2
  · intro t2 q3 hlk
    by_cases ht2 : t2 = r
    · subst ht2
      rw [lookupTime_storeTime_self] at hlk
      obtain rfl : q2 = q3 := by simpa using hlk
      refine ⟨hq2pl, ?_⟩
      intro k2
      rw [hq2buckets k2]
      have hft : (wb0 ++ [e2]).filter (fun x => x.time == some t2) =
          wb0.filter (fun x => x.time == some t2) ++ [e2] := by
        rw [List.filter_append]
        simp [List.filter_cons, he2]
      rw [hft]
    · rw [lookupTime_storeTime_ne tqs r t2 q2 ht2] at hlk
      obtain ⟨hpl3, hbk3⟩ := hchar2 t2 q3 hlk
      refine ⟨hpl3, ?_⟩
      intro k2
      rw [hbk3 k2]
      have ht2r : ¬ r = t2 := fun h => ht2 h.symm
      have hft : (wb0 ++ [e2]).filter (fun x => x.time == some t2) =
          wb0.filter (fun x => x.time == some t2) := by
        rw [List.filter_append]
        have hfe : [e2].filter (fun x => x.time == some t2) = [] := by
          simp [List.filter_cons, he2, ht2r]
        rw [hfe, List.append_nil]
      rw [hft]

/-- Replaying a sequence of `add` calls whose resolved times are positive,
from a characterizable state with `currentTime = 0`, yields a characterizable
state whose insertion log has grown by the written-back events. -/
theorem addAll_char (test : String → String → Bool) (pl : List String) :
    ∀ (adds : List (Event × Option Int)) (eq : EventQueue)
      (wb0 : List Event) (eq2 : EventQueue),
      SInv eq → eq.currentTime = 0 → eq.priorityList = pl →
      timesChar test (effectivePriorities pl) eq.timeQueues wb0 →
      (∀ p ∈ adds, 0 < resolveTime 0 p.1.time p.2) →
      addAll test eq adds = some eq2 →
      SInv eq2 ∧ eq2.currentTime = 0 ∧ eq2.priorityList = pl ∧
        eq2.currentQueue = eq.currentQueue ∧
        timesChar test (effectivePriorities pl) eq2.timeQueues
          (wb0 ++ writeBack 0 adds) := by
  intro adds
  induction adds with
  | nil =>
    intro eq wb0 eq2 hinv hct hpl hchar hpos haddall
    obtain rfl : eq = eq2 := by simpa [addAll] using haddall
    exact ⟨hinv, hct, hpl, rfl, by simpa [writeBack] using hchar⟩
  | cons p rest ih =>
    obtain ⟨e, t⟩ := p
    intro eq wb0 eq2 hinv hct hpl hchar hpos haddall
    simp only [addAll] at haddall
    rcases hadd : eq.add test e t with _ | eq1
    · rw [hadd] at haddall
      exact Option.noConfusion haddall
    · rw [hadd] at haddall
      have haddall2 : addAll test eq1 rest = some eq2 := haddall
      have hres : eq.currentTime < resolveTime eq.currentTime e.time t := by
        rw [hct]
        exact hpos (e, t) (by simp)
      obtain ⟨hinv1, hlen1, hnt1⟩ :=
        SInv_add_core test eq e t eq1 hinv hres hadd
      obtain ⟨q2, hq2, heq1⟩ := EQ_add_anatomy test eq e t eq1 hadd
      rw [hct] at hq2 heq1
      have hct1 : eq1.currentTime = 0 := by rw [heq1]
      have hpl1 : eq1.priorityList = pl := by rw [heq1]; exact hpl
      have hcq1 : eq1.currentQueue = eq.currentQueue := by rw [heq1]
      have htq1 : eq1.timeQueues =
          storeTime eq.timeQueues (resolveTime 0 e.time t) q2 := by
        rw [heq1]
      have hinitpl : (PriorityQueue.init eq.priorityList).priorityList =
          effectivePriorities pl := by
        rw [hpl]
        rfl
      obtain ⟨hq2pl, hq2buckets⟩ : q2.priorityList = effectivePriorities pl ∧
          ∀ k2, q2.eventQueues k2 =
            ((wb0.filter (fun x : Event =>
                  x.time == some (resolveTime 0 e.time t))) ++
                [{ e with time := some (resolveTime 0 e.time t) }]).filter
              (fun x : Event => findKey test (effectivePriorities pl) x.name
                == some k2) := by
        rcases hlk : lookupTime eq.timeQueues (resolveTime 0 e.time t)
            with _ | qst
        · rw [hlk] at hq2
          have hq2b : (PriorityQueue.init eq.priorityList).add test
              { e with time := some (resolveTime 0 e.time t) } =
                some q2 := hq2
          obtain ⟨k, hfind, hkmem, hq2eq⟩ :=
            PQ_add_characterize test _ _ _ hq2b
          rw [hinitpl] at hfind
          have hnomem : resolveTime 0 e.time t ∉ timeKeys eq.timeQueues :=
            (lookupTime_eq_none_iff _ _).mp hlk
          have hwbnil : wb0.filter
              (fun x : Event =>
                x.time == some (resolveTime 0 e.time t)) = [] := by
            by_contra hne
            exact hnomem ((hchar.1 _).mpr hne)
          constructor
          · rw [hq2eq]
            exact hinitpl
          · intro k2
            rw [hq2eq, hwbnil]
            show updateQueue (PriorityQueue.init eq.priorityList).eventQueues
                k ((PriorityQueue.init eq.priorityList).eventQueues k ++
                  [{ e with time := some (resolveTime 0 e.time t) }]) k2 = _
            by_cases hkk : k2 = k
            · subst hkk
              simp only [updateQueue, if_pos rfl]
              simp [PriorityQueue.init, PriorityQueue.setPriorities,
                List.filter_cons, hfind]
            · have hkk2 : ¬ k = k2 := fun h => hkk h.symm
              simp only [updateQueue, if_neg hkk]
              simp [PriorityQueue.init, PriorityQueue.setPriorities,
                List.filter_cons, hfind, hkk2]
        · rw [hlk] at hq2
          have hq2b : qst.add test
              { e with time := some (resolveTime 0 e.time t) } =
                some q2 := hq2
          obtain ⟨hplst, hbkst⟩ := hchar.2 _ qst hlk
          obtain ⟨k, hfind, hkmem, hq2eq⟩ :=
            PQ_add_characterize test _ _ _ hq2b
          rw [hplst] at hfind
          constructor
          · rw [hq2eq]
            exact hplst
          · intro k2
            rw [hq2eq]
            show updateQueue qst.eventQueues k (qst.eventQueues k ++
                [{ e with time := some (resolveTime 0 e.time t) }]) k2 = _
            by_cases hkk : k2 = k
            · subst hkk
              simp only [updateQueue, if_pos rfl]
              rw [hbkst k2, List.filter_append]
              simp [List.filter_cons, hfind]
            · have hkk2 : ¬ k = k2 := fun h => hkk h.symm
              simp only [updateQueue, if_neg hkk]
              rw [hbkst k2, List.filter_append]
              simp [List.filter_cons, hfind, hkk2]
      have hchar3 : timesChar test (effectivePriorities pl) eq1.timeQueues
          (wb0 ++ [{ e with time := some (resolveTime 0 e.time t) }]) := by
        rw [htq1]
        exact timesChar_store test _ eq.timeQueues wb0 _ _ q2 hchar rfl
          hq2pl hq2buckets
      obtain ⟨hinvF, hctF, hplF, hcqF, hcharF⟩ :=
        ih eq1 (wb0 ++ [{ e with time := some (resolveTime 0 e.time t) }])
          eq2 hinv1 hct1 hpl1 hchar3
          (fun p hp => hpos p (by simp [hp])) haddall2
      refine ⟨hinvF, hctF, hplF, hcqF.trans hcq1, ?_⟩
      have hl : (wb0 ++
            [{ e with time := some (resolveTime 0 e.time t) }]) ++
          writeBack 0 rest = wb0 ++ writeBack 0 ((e, t) :: rest) := by
        rw [writeBack_cons]
        simp
      rw [← hl]
      exact hcharF

/-- On an event filed under bucket `k`, the drain-order rank of the claim
coincides with the proof-internal key rank. -/
theorem rankOf_eq_keyRank (test : String → String → Bool) (pl2 : List String)
    (e : Event) (k : String)
    (hk : findKey test pl2 e.name = some k) :
    rankOf test pl2 e =
      keyRank pl2 (fun x => findKey test pl2 x.name) e := by
  rw [rankOf, bucketRank_eq_strIndex test pl2 e.name k hk]
  simp [keyRank, hk]

theorem filter_eq_nil_of (l : List Event) (p : Event → Bool)
    (h : ∀ a ∈ l, p a = false) : l.filter p = [] := by
  induction l with
  | nil => rfl
  | cons a as ih =>
    rw [List.filter_cons, h a (List.mem_cons_self a as)]
    simp only [Bool.false_eq_true, if_false]
    exact ih (fun b hb => h b (List.mem_cons_of_mem a hb))

theorem filter_time_comm (wb : List Event) (m t : Int) (h : ¬ t = m) :
    (wb.filter (fun e => !(e.time == some m))).filter
      (fun e => e.time == some t) =
    wb.filter (fun e => e.time == some t) := by
  rw [List.filter_filter]
  refine List.filter_congr ?_
  intro a ha
  cases hat : (a.time == some t) with
  | false => simp [hat]
  | true =>
    have h2 : a.time = some t := by simpa using hat
    simp [h2, h]

theorem filter_time_self_nil (wb : List Event) (m : Int) :
    (wb.filter (fun e => !(e.time == some m))).filter
      (fun e => e.time == some m) = [] := by
  rw [List.filter_filter]
  refine filter_eq_nil_of wb _ ?_
  intro a ha
  cases h : (a.time == some m) <;> simp [h]

theorem filter_and_time (wb : List Event) (p2 : Event → Bool) (m : Int)
    (hcond : ∀ a ∈ wb, p2 a = true → (a.time == some m) = true) :
    (wb.filter (fun e => e.time == some m)).filter p2 = wb.filter p2 := by
  rw [List.filter_filter]
  refine List.filter_congr ?_
  intro a ha
  cases hp : p2 a with
  | false => simp [hp]
  | true => simp [hp, hcond a ha hp]

theorem filter_and_time_neg (wb : List Event) (p2 : Event → Bool) (m : Int)
    (hcond : ∀ a ∈ wb, p2 a = true → (a.time == some m) = false) :
    (wb.filter (fun e => !(e.time == some m))).filter p2 =
      wb.filter p2 := by
  rw [List.filter_filter]
  refine List.filter_congr ?_
  intro a ha
  cases hp : p2 a with
  | false => simp [hp]
  | true => simp [hp, hcond a ha hp]

theorem char_wb_nil (wb : List Event)
    (hkeys : ∀ t : Int, t ∈ timeKeys ([] : List (Int × PriorityQueue)) ↔
      wb.filter (fun e => e.time == some t) ≠ [])
    (htime : ∀ e ∈ wb, ∃ v, e.time = some v) : wb = [] := by
  cases wb with
  | nil => rfl
  | cons e es =>
    obtain ⟨v, hv⟩ := htime e (by simp)
    have hne : (e :: es).filter (fun x => x.time == some v) ≠ [] :=
      List.ne_nil_of_mem
        (show e ∈ (e :: es).filter (fun x => x.time == some v) from
          List.mem_filter.mpr ⟨by simp, by simp [hv]⟩)
    have hmem := (hkeys v).mpr hne
    simp [timeKeys_nil] at hmem

/-- Slot-by-slot drain of a characterizable sparse index: a permutation of
the insertion log, ordered by time then bucket rank, and stable per
(time, rank) class. -/
theorem drainTimes_props (test : String → String → Bool) (pl2 : List String) :
    ∀ (fuel : Nat) (tqs : List (Int × PriorityQueue)) (wb : List Event),
      tqs.length ≤ fuel →
      (timeKeys tqs).Nodup →
      (∀ t : Int, t ∈ timeKeys tqs ↔
        wb.filter (fun e => e.time == some t) ≠ []) →
      (∀ t q, lookupTime tqs t = some q →
        q.priorityList = pl2 ∧
        (∀ k, q.eventQueues k =
          (wb.filter (fun e => e.time == some t)).filter
            (fun e => findKey test pl2 e.name == some k))) →
      (∀ e ∈ wb, ∃ v, e.time = some v) →
      (∀ e ∈ wb, ∃ k, findKey test pl2 e.name = some k ∧ k ∈ pl2) →
      List.Perm (drainTimes tqs fuel) wb ∧
      (drainTimes tqs fuel).Pairwise (lexLE test pl2) ∧
      (∀ (t : Int) (r : Nat),
        (drainTimes tqs fuel).filter
          (fun e => (timeOf e == t) && (rankOf test pl2 e == r)) =
        wb.filter
          (fun e => (timeOf e == t) && (rankOf test pl2 e == r))) := by
  intro fuel
  induction fuel with
  | zero =>
    intro tqs wb hfuel hnd hkeys hlook htime hwild
    have htqs : tqs = [] := List.length_eq_zero.mp (by omega)
    subst htqs
    have hwb : wb = [] := char_wb_nil wb hkeys htime
    subst hwb
    exact ⟨List.Perm.refl _, by simp [drainTimes_zero],
      fun t r => by simp [drainTimes_zero]⟩
  | succ n ihn =>
    intro tqs wb hfuel hnd hkeys hlook htime hwild
    rcases hmk : minKey? tqs with _ | m
    · have htqs : tqs = [] := (minKey?_eq_none_iff tqs).mp hmk
      subst htqs
      have hwb : wb = [] := char_wb_nil wb hkeys htime
      subst hwb
      exact ⟨by simp [drainTimes_nil], by simp [drainTimes_nil],
        fun t r => by simp [drainTimes_nil]⟩
    · obtain ⟨hmmem, hmle⟩ := minKey?_spec tqs m hmk
      obtain ⟨qm, hqm⟩ : ∃ qm, lookupTime tqs m = some qm := by
        have hs := (lookupTime_isSome_iff tqs m).mpr hmmem
        rcases hq : lookupTime tqs m with _ | qm
        · rw [hq] at hs
          simp at hs
        · exact ⟨qm, rfl⟩
      obtain ⟨hqmpl, hqmbk⟩ := hlook m qm hqm
      have hunfold : drainTimes tqs (n + 1) =
          qm.toList ++ drainTimes (eraseTime tqs m) n := by
        rw [drainTimes_succ]
        simp only [hmk]
        rw [hqm]
        rfl
      have hflat : qm.toList =
          seqDrain (fun x => findKey test pl2 x.name) pl2
            (wb.filter (fun e => e.time == some m)) := by
        rw [show qm.toList =
          flattenBuckets qm.eventQueues qm.priorityList from rfl, hqmpl]
        exact seqDrain_of_bucketsChar _ pl2 _ qm.eventQueues hqmbk
      obtain ⟨hPermB, hPairB, hStabB⟩ :=
        seqDrain_spec (fun x => findKey test pl2 x.name) pl2 pl2 []
          (wb.filter (fun e => e.time == some m)) (by simp) (by
            intro e he
            obtain ⟨k, hk, hkmem⟩ := hwild e (List.mem_filter.mp he).1
            exact ⟨k, hk, hkmem, by simp⟩)
      have helen : (eraseTime tqs m).length = tqs.length - 1 :=
        eraseTime_length tqs m hnd hmmem
      have hndE := timeKeys_nodup_eraseTime tqs m hnd
      have hkeysE : ∀ t : Int, t ∈ timeKeys (eraseTime tqs m) ↔
          (wb.filter (fun e => !(e.time == some m))).filter
            (fun e => e.time == some t) ≠ [] := by
        intro t
        by_cases htm : t = m
        · subst htm
          rw [filter_time_self_nil]
          constructor
          · intro hmem
            exact absurd (timeKeys_eraseTime_not_mem tqs t t hmem).2
              (by simp)
          · intro hne
            exact absurd rfl hne
        · rw [filter_time_comm wb m t htm, timeKeys_eraseTime]
          have hiff : (t ∈ (timeKeys tqs).filter (fun x => x != m)) ↔
              t ∈ timeKeys tqs := by
            simp [List.mem_filter, htm]
          rw [hiff]
          exact hkeys t
      have hlookE : ∀ t q, lookupTime (eraseTime tqs m) t = some q →
          q.priorityList = pl2 ∧ ∀ k, q.eventQueues k =
            ((wb.filter (fun e => !(e.time == some m))).filter
              (fun e => e.time == some t)).filter
              (fun e => findKey test pl2 e.name == some k) := by
        intro t q hq
        rw [lookupTime_eraseTime] at hq
        by_cases htm : t = m
        · rw [if_pos htm] at hq
          exact absurd hq (by simp)
        · rw [if_neg htm] at hq
          obtain ⟨hp, hb⟩ := hlook t q hq
          refine ⟨hp, ?_⟩
          intro k
          rw [hb k, filter_time_comm wb m t htm]
      obtain ⟨hPermR, hPairR, hStabR⟩ := ihn (eraseTime tqs m)
        (wb.filter (fun e => !(e.time == some m)))
        (by omega) hndE hkeysE hlookE
        (fun e he => htime e (List.mem_filter.mp he).1)
        (fun e he => hwild e (List.mem_filter.mp he).1)
      have hBmem : ∀ e ∈ qm.toList, e ∈ wb ∧ e.time = some m := by
        intro e he
        rw [hflat] at he
        have he2 := hPermB.mem_iff.mp he
        obtain ⟨hew, het⟩ := List.mem_filter.mp he2
        exact ⟨hew, by simpa using het⟩
      have hRmem : ∀ e ∈ drainTimes (eraseTime tqs m) n,
          ∃ v, e.time = some v ∧ m < v := by
        intro e he
        have he2 := hPermR.mem_iff.mp he
        obtain ⟨hewb, henm⟩ := List.mem_filter.mp he2
        obtain ⟨v, hv⟩ := htime e hewb
        refine ⟨v, hv, ?_⟩
        have hne : (wb.filter (fun x => !(x.time == some m))).filter
            (fun x => x.time == some v) ≠ [] :=
          List.ne_nil_of_mem
            (show e ∈ (wb.filter (fun x => !(x.time == some m))).filter
                (fun x => x.time == some v) from
              List.mem_filter.mpr ⟨he2, by simp [hv]⟩)
        have hvmem := (hkeysE v).mpr hne
        obtain ⟨hvk, hvne⟩ := timeKeys_eraseTime_not_mem tqs m v hvmem
        have := hmle v hvk
        omega
      refine ⟨?_, ?_, ?_⟩
      · rw [hunfold]
        have h1 : List.Perm
            (qm.toList ++ drainTimes (eraseTime tqs m) n)
            (wb.filter (fun e => e.time == some m) ++
              wb.filter (fun e => !(e.time == some m))) := by
          refine List.Perm.append ?_ hPermR
          rw [hflat]
          exact hPermB
        exact h1.trans (List.filter_append_perm _ wb)
      · rw [hunfold, List.pairwise_append]
        refine ⟨?_, hPairR, ?_⟩
        · rw [hflat]
          refine List.Pairwise.imp_of_mem ?_ hPairB
          intro a b ha hb hab
          have haw := hPermB.mem_iff.mp ha
          have hbw := hPermB.mem_iff.mp hb
          obtain ⟨haw2, hat⟩ := List.mem_filter.mp haw
          obtain ⟨hbw2, hbt⟩ := List.mem_filter.mp hbw
          obtain ⟨ka, hka, _⟩ := hwild a haw2
          obtain ⟨kb, hkb, _⟩ := hwild b hbw2
          refine Or.inr ⟨?_, ?_⟩
          · have h1 : a.time = some m := by simpa using hat
            have h2 : b.time = some m := by simpa using hbt
            simp [timeOf, h1, h2]
          · rw [rankOf_eq_keyRank test pl2 a ka hka,
              rankOf_eq_keyRank test pl2 b kb hkb]
            exact hab
        · intro a ha b hb
          obtain ⟨haw, hat⟩ := hBmem a ha
          obtain ⟨v, hv, hmv⟩ := hRmem b hb
          refine Or.inl ?_
          simp [timeOf, hat, hv]
          omega
      · intro t r
        rw [hunfold, List.filter_append]
        by_cases htm : t = m
        · subst htm
          have hRnil : (drainTimes (eraseTime tqs t) n).filter
              (fun e => (timeOf e == t) && (rankOf test pl2 e == r)) =
              [] := by
            refine filter_eq_nil_of _ _ ?_
            intro b hb
            obtain ⟨v, hv, hmv⟩ := hRmem b hb
            have h1 : timeOf b = v := by simp [timeOf, hv]
            have h2 : ¬ v = t := by omega
            simp [h1, h2]
          have hBstab : qm.toList.filter
              (fun e => (timeOf e == t) && (rankOf test pl2 e == r)) =
              (wb.filter (fun e => e.time == some t)).filter
                (fun e => (timeOf e == t) && (rankOf test pl2 e == r)) := by
            have hcongr : ∀ (l : List Event),
                (∀ e ∈ l, e ∈ wb ∧ e.time = some t) →
                l.filter (fun e =>
                    (timeOf e == t) && (rankOf test pl2 e == r)) =
                l.filter (fun e => keyRank pl2
                    (fun x => findKey test pl2 x.name) e == r) := by
              intro l hl
              refine List.filter_congr ?_
              intro a ha
              obtain ⟨haw, hatime⟩ := hl a ha
              obtain ⟨k, hk, _⟩ := hwild a haw
              have h1 : timeOf a = t := by simp [timeOf, hatime]
              rw [rankOf_eq_keyRank test pl2 a k hk]
              simp [h1]
            rw [hcongr qm.toList hBmem, hflat, hStabB r,
              ← hcongr (wb.filter (fun e => e.time == some t))
                (fun e he => ⟨(List.mem_filter.mp he).1,
                  by simpa using (List.mem_filter.mp he).2⟩)]
          rw [hRnil, hBstab, List.append_nil]
          refine filter_and_time wb _ t ?_
          intro a ha hp
          obtain ⟨v, hv⟩ := htime a ha
          have h1 : timeOf a = v := by simp [timeOf, hv]
          have h2 : (timeOf a == t) = true := by
            cases hx : (timeOf a == t) with
            | true => rfl
            | false => rw [hx] at hp; simp at hp
          have h3 : v = t := by
            rw [h1] at h2
            simpa using h2
          simp [hv, h3]
        · have hBnil : qm.toList.filter
              (fun e => (timeOf e == t) && (rankOf test pl2 e == r)) =
              [] := by
            refine filter_eq_nil_of _ _ ?_
            intro b hb
            obtain ⟨hbw, hbt⟩ := hBmem b hb
            have h1 : timeOf b = m := by simp [timeOf, hbt]
            have h2 : ¬ m = t := fun h => htm h.symm
            simp [h1, h2]
          rw [hBnil, hStabR t r, List.nil_append]
          refine filter_and_time_neg wb _ m ?_
          intro a ha hp
          obtain ⟨v, hv⟩ := htime a ha
          have h1 : timeOf a = v := by simp [timeOf, hv]
          have h2 : (timeOf a == t) = true := by
            cases hx : (timeOf a == t) with
            | true => rfl
            | false => rw [hx] at hp; simp at hp
          have h3 : v = t := by
            rw [h1] at h2
            simpa using h2
          have h4 : ¬ v = m := by
            rw [h3]
            exact htm
          simp [hv, h4]

/-- C1: for a fixed priority pattern list and any fixed sequence of `add`
calls whose resolved times are each strictly greater than the queue's
`currentTime` at the moment of that add (a pure add phase, during which
`currentTime` stays `0`), draining the queue by repeated `next()` calls
yields every added event exactly once — the output is a permutation of the
written-back insertion log — in the total order: resolved time ascending,
then priority-bucket rank ascending, then insertion sequence ascending
(within each (time, rank) class the drain preserves insertion order). -/
theorem C1_drain_total_order (test : String → String → Bool)
    (pl : List String) (adds : List (Event × Option Int)) (eqA : EventQueue)
    (hw : ∀ s, test "" s = true)
    (hpos : ∀ p ∈ adds, 0 < resolveTime 0 p.1.time p.2)
    (hadds : addAll test (EventQueue.init pl) adds = some eqA) :
    ∃ out, drainEQ eqA eqA.length = some out ∧
      List.Perm out (writeBack 0 adds) ∧
      out.Pairwise (lexLE test (effectivePriorities pl)) ∧
      (∀ (t : Int) (r : Nat),
        out.filter (fun e => (timeOf e == t) &&
          (rankOf test (effectivePriorities pl) e == r)) =
        (writeBack 0 adds).filter (fun e => (timeOf e == t) &&
          (rankOf test (effectivePriorities pl) e == r))) := by
  have hinitchar : timesChar test (effectivePriorities pl)
      (EventQueue.init pl).timeQueues [] := by
    constructor
    · intro t
      simp [EventQueue.init, timeKeys_nil]
    · intro t q h
      exact absurd h (by simp [EventQueue.init, lookupTime_nil])
  obtain ⟨hinvA, hctA, hplA, hcqA, hcharA⟩ :=
    addAll_char test pl adds (EventQueue.init pl) [] eqA
      (SInv_init pl) rfl rfl hinitchar hpos hadds
  have hcqA2 : eqA.currentQueue = none := hcqA
  have hwbchar : timesChar test (effectivePriorities pl) eqA.timeQueues
      (writeBack 0 adds) := by
    simpa using hcharA
  have htimeW : ∀ e ∈ writeBack 0 adds, ∃ v, e.time = some v := by
    intro e he
    obtain ⟨p, hp, rfl⟩ := writeBack_mem 0 adds e he
    exact ⟨_, rfl⟩
  have hwildW : ∀ e ∈ writeBack 0 adds,
      ∃ k, findKey test (effectivePriorities pl) e.name = some k ∧
        k ∈ effectivePriorities pl := by
    intro e he
    have hmem : ("" : String) ∈ effectivePriorities pl := by
      simp [effectivePriorities]
    have hsome : (findKey test (effectivePriorities pl) e.name).isSome := by
      rw [findKey, List.find?_isSome]
      exact ⟨"", hmem, hw e.name⟩
    rcases hk : findKey test (effectivePriorities pl) e.name with _ | k
    · rw [hk] at hsome
      simp at hsome
    · exact ⟨k, rfl, List.mem_of_find?_eq_some hk⟩
  obtain ⟨hPerm, hPair, hStab⟩ := drainTimes_props test
    (effectivePriorities pl) eqA.timeQueues.length eqA.timeQueues
    (writeBack 0 adds) (le_refl _) hinvA.keysNodup hwbchar.1 hwbchar.2
    htimeW hwildW
  refine ⟨drainTimes eqA.timeQueues eqA.timeQueues.length, ?_, hPerm,
    hPair, hStab⟩
  rw [drain_master eqA hinvA, remSpec, hcqA2]
  simp

/-- Witness for C1 at a concrete run: two adds (one with explicit time 2,
one with event time 1) on pattern list `(a)` with a total regex, drained
fully. -/
theorem C1_drain_total_order_witness :
    ∃ out,
      drainEQ ((addAll (fun _ _ => true) (EventQueue.init ["a"])
          [(⟨"b", none, 0⟩, some 2), (⟨"a", some 1, 0⟩, none)]).getD
            (EventQueue.init []))
        ((addAll (fun _ _ => true) (EventQueue.init ["a"])
          [(⟨"b", none, 0⟩, some 2), (⟨"a", some 1, 0⟩, none)]).getD
            (EventQueue.init [])).length = some out ∧
      List.Perm out (writeBack 0
        [(⟨"b", none, 0⟩, some 2), (⟨"a", some 1, 0⟩, none)]) ∧
      out.Pairwise (lexLE (fun _ _ => true) (effectivePriorities ["a"])) ∧
      (∀ (t : Int) (r : Nat),
        out.filter (fun e => (timeOf e == t) &&
          (rankOf (fun _ _ => true) (effectivePriorities ["a"]) e == r)) =
        (writeBack 0 [(⟨"b", none, 0⟩, some 2),
            (⟨"a", some 1, 0⟩, none)]).filter
          (fun e => (timeOf e == t) &&
            (rankOf (fun _ _ => true) (effectivePriorities ["a"]) e
              == r))) :=
  C1_drain_total_order (fun _ _ => true) ["a"]
    [(⟨"b", none, 0⟩, some 2), (⟨"a", some 1, 0⟩, none)] _
    (fun s => rfl) (by decide) rfl

end Scarab
